import Mathlib

/-! The streaming source block `yunsdr_source_impl` of gr-yunsdr.

A shallow embedding of `lib/yunsdr_source_impl.cc`: the channel de-interleaver,
the block constructor's buffer bookkeeping, the capture loop `yunsdr_wait`, the
consumer entry point `work`, and `start` / `stop`.

Conventions.
* Memory buffers are lists of cells; an access outside a buffer yields `none`.
* Unsigned 32-bit counters are natural numbers reduced modulo `2 ^ 32`.
* A frame is the block of `_buf_len` bytes moved through the ring buffer.  Wider
  cells are read from it in little-endian byte order.
* Single-precision results of the sample conversion are represented by rational
  numbers: a 16-bit integer divided by `32768` is a dyadic rational with a
  16-bit numerator, hence it is represented exactly.
-/

namespace YunSDR

/-! ## Buffers -/

/-- Checked store `buf[i] = v`; `none` when `i` lies outside the buffer. -/
def store (buf : List Nat) (i v : Nat) : Option (List Nat) :=
  if i < buf.length then some (buf.set i v) else none

/-- Wrap-around of an `unsigned int`. -/
def u32 (n : Nat) : Nat := n % 2 ^ 32

/-! ## `yunsdr_32u_deinterleave_32u_x2_generic` -/

/-- Registers of the de-interleave loop: the counter `number`, the read cursor
`VectorPtr` and the two write cursors, all as offsets from their base. -/
structure DeintRegs where
  number : Nat
  VectorPtr : Nat
  BufferPtr0 : Nat
  BufferPtr1 : Nat
  deriving DecidableEq, Repr

/-- The `for` loop of the de-interleaver.  One unit of fuel is spent per
iteration; the result is `none` when a load or store leaves its buffer or the
fuel is used up. -/
def deinterleave_loop (Vector : List Nat) (num_points : Nat) :
    Nat → DeintRegs → List Nat → List Nat → Option (List Nat × List Nat)
  | fuel, r, Buffer0, Buffer1 =>
    if r.number < num_points then
      match fuel with
      | 0 => none
      | fuel + 1 =>
        match Vector[r.VectorPtr]? with
        | none => none
        | some a =>
          match store Buffer0 r.BufferPtr0 a with
          | none => none
          | some Buffer0 =>
            match Vector[r.VectorPtr + 1]? with
            | none => none
            | some b =>
              match store Buffer1 r.BufferPtr1 b with
              | none => none
              | some Buffer1 =>
                deinterleave_loop Vector num_points fuel
                  { number := u32 (r.number + 1)
                    VectorPtr := r.VectorPtr + 2
                    BufferPtr0 := r.BufferPtr0 + 1
                    BufferPtr1 := r.BufferPtr1 + 1 } Buffer0 Buffer1
    else some (Buffer0, Buffer1)

/-- The de-interleaver: `Buffer0` and `Buffer1` are the output arrays with their
contents before the call, `Vector` is the interleaved input. -/
def yunsdr_32u_deinterleave_32u_x2_generic (Buffer0 Buffer1 Vector : List Nat)
    (num_points : Nat) : Option (List Nat × List Nat) :=
  deinterleave_loop Vector num_points num_points
    { number := 0, VectorPtr := 0, BufferPtr0 := 0, BufferPtr1 := 0 } Buffer0 Buffer1

/-! ## Frames and the typed arrays laid over them -/

/-- A frame: the bytes of one device read. -/
abbrev Frame := List Nat

/-- Little-endian value of a run of bytes. -/
def leValue : List Nat → Nat
  | [] => 0
  | b :: bs => b + 256 * leValue bs

/-- The array of `w`-byte cells laid over a block of bytes (`w = 2` for
`short buf[]`, `w = 4` for `unsigned int buf[]`). -/
def cells (w : Nat) (bytes : List Nat) : List Nat :=
  (List.range (bytes.length / w)).map fun i => leValue ((bytes.drop (w * i)).take w)

/-- Value of a 16-bit cell read as `short`. -/
def toInt16 (h : Nat) : Int :=
  if h % 65536 < 32768 then (h % 65536 : Nat) else ((h % 65536 : Nat) : Int) - 65536

/-- The `short` array laid over a block of bytes. -/
def shorts (bytes : List Nat) : List Int := (cells 2 bytes).map toInt16

/-- The cast `(short *) rx`: the `short` array laid over an `unsigned int`
array, low half first. -/
def halves : List Nat → List Int
  | [] => []
  | w :: ws => toInt16 (w % 65536) :: toInt16 (w / 65536) :: halves ws

/-- A local array of `n` cells after a frame's cells have been copied to its
start; the cells behind the copy are never read and are shown as `0`. -/
def localArray (n : Nat) (copied : List Nat) : List Nat :=
  copied ++ List.replicate (n - copied.length) 0

/-- The `gr_complex` array laid over an array of floats: consecutive
(real, imaginary) pairs. -/
def complexOf : List ℚ → List (ℚ × ℚ)
  | re :: im :: rest => (re, im) :: complexOf rest
  | _ => []

/-- Modelled from the spec: the VOLK kernel `volk_16i_s32f_convert_32f`, which is
not part of the source file.  Each of the first `num_points` 16-bit inputs is
divided by the scale constant; `none` when the input array is shorter than
`num_points`. -/
def volk_16i_s32f_convert_32f (inputVector : List Int) (scalar : ℚ) (num_points : Nat) :
    Option (List ℚ) :=
  if num_points ≤ inputVector.length then
    some ((inputVector.take num_points).map fun (v : Int) => (v : ℚ) / scalar)
  else none

/-! ## The frame buffer pool -/

/-- Modelled from the spec: the circular buffer behind `cb_init`, `cb_has_room`,
`cb_push_back` and `cb_pop_front`, whose code is not part of the source file.  A
bounded FIFO of `capacity` slots of `sz` bytes; `queue` lists the resident
frames, oldest first. -/
structure CBuf where
  capacity : Nat
  sz : Nat
  queue : List Frame
  deriving DecidableEq, Repr

/-- Modelled from the spec: `cb_init`, an empty pool of `capacity` slots. -/
def cb_init (capacity sz : Nat) : CBuf := { capacity := capacity, sz := sz, queue := [] }

/-- Modelled from the spec: `cb_has_room`, true iff fewer than `capacity` frames
are queued. -/
def cb_has_room (cb : CBuf) : Bool := decide (cb.queue.length < cb.capacity)

/-- Modelled from the spec: `cb_push_back`, which appends the frame when there is
room and otherwise leaves the pool as it is and reports `false`. -/
def cb_push_back (cb : CBuf) (item : Frame) : CBuf × Bool :=
  if cb_has_room cb then ({ cb with queue := cb.queue ++ [item] }, true) else (cb, false)

/-- Modelled from the spec: `cb_pop_front`, which removes and hands out the
oldest frame, or reports failure on an empty pool. -/
def cb_pop_front (cb : CBuf) : CBuf × Option Frame :=
  match cb.queue with
  | [] => (cb, none)
  | item :: rest => ({ cb with queue := rest }, some item)

/-! ## The block object and its constructor -/

def BUF_LEN : Nat := 65536

def BUF_NUM : Nat := 1500

def BYTES_PER_SAMPLE : Nat := 4

/-- Return value of `work` that ends the stream. -/
def WORK_DONE : Int := -1

inductive RxChannel
  | RX1_CHANNEL
  | RX2_CHANNEL
  | RX_DUALCHANNEL
  deriving DecidableEq, Repr

/-- The fields of `yunsdr_source_impl` used by the data plane, together with what
the constructor registers with the scheduler. -/
structure Block where
  rx_channel : RxChannel
  _buf_num : Nat
  _buf_len : Nat
  _samp_avail : Nat
  _cbuf : CBuf
  /-- number of output ports of the io signature -/
  noutputs : Nat
  /-- the `set_min_output_buffer (port, size)` calls, in order -/
  min_output_buffer : List (Nat × Nat)
  /-- the argument of `set_min_noutput_items` -/
  min_noutput_items : Nat
  deriving DecidableEq, Repr

/-- The buffer bookkeeping of the constructor, for a chunk size `bufLen` and a
pool of `bufNum` slots. -/
def construct (bufLen bufNum : Nat) (rx1_en rx2_en : Bool) : Block :=
  let rx_channel :=
    if rx1_en && rx2_en then RxChannel.RX_DUALCHANNEL
    else if rx1_en && !rx2_en then RxChannel.RX1_CHANNEL
    else RxChannel.RX2_CHANNEL
  let _buf_num := bufNum
  let _buf_len := bufLen * (if rx_channel = RxChannel.RX_DUALCHANNEL then 2 else 1)
  let _samp_avail := _buf_len / BYTES_PER_SAMPLE
  { rx_channel := rx_channel
    _buf_num := _buf_num
    _buf_len := _buf_len
    _samp_avail := _samp_avail
    _cbuf := cb_init _buf_num _buf_len
    noutputs := rx1_en.toNat + rx2_en.toNat
    min_output_buffer :=
      (0, _buf_len * BYTES_PER_SAMPLE) ::
        (if rx2_en then [(1, _buf_len * BYTES_PER_SAMPLE)] else [])
    min_noutput_items := if rx2_en then _samp_avail / 2 else _samp_avail }

/-- The constructor with the source's constants `BUF_LEN` and `BUF_NUM`. -/
def yunsdr_source_impl (rx1_en rx2_en : Bool) : Block :=
  construct BUF_LEN BUF_NUM rx1_en rx2_en

/-! ## `work`: conversion of one popped frame -/

/-- What one call of `work` hands back: the returned item count and the complex
samples written to each output port. -/
structure WorkReturn where
  ret : Int
  out : List (List (ℚ × ℚ))
  deriving DecidableEq

def scaling : ℚ := 32768

/-- Scale conversion of one 32-bit word as the specification words it: each
signed 16-bit half divided by `32768`, the low half giving the real part. -/
def convWord (w : Nat) : ℚ × ℚ :=
  ((toInt16 (w % 65536) : ℚ) / 32768, (toInt16 (w / 65536) : ℚ) / 32768)

/-- The dual-channel branch of `work` after `cb_pop_front` has copied `frame`
into `buf`.  The branch uses `output_items[0]` and `output_items[1]`, so the
block must have two output ports. -/
def work_dual (b : Block) (frame : Frame) : Option WorkReturn :=
  if b.noutputs < 2 then none else
  let buf := localArray b._buf_len (cells 4 frame)
  let rx1 := List.replicate (b._samp_avail / 2) 0
  let rx2 := List.replicate (b._samp_avail / 2) 0
  match yunsdr_32u_deinterleave_32u_x2_generic rx1 rx2 buf (u32 (b._samp_avail / 2)) with
  | none => none
  | some (rx1, rx2) =>
    match volk_16i_s32f_convert_32f (halves rx1) scaling (u32 b._samp_avail) with
    | none => none
    | some out0 =>
      match volk_16i_s32f_convert_32f (halves rx2) scaling (u32 b._samp_avail) with
      | none => none
      | some out1 =>
        some { ret := (b._samp_avail / 2 : Nat), out := [complexOf out0, complexOf out1] }

/-- The single-channel branch of `work` after `cb_pop_front` has copied `frame`
into `buf`.  The branch uses `output_items[0]`, so the block must have an
output port. -/
def work_single (b : Block) (frame : Frame) : Option WorkReturn :=
  if b.noutputs < 1 then none else
  let buf := (localArray b._buf_len (cells 2 frame)).map toInt16
  match volk_16i_s32f_convert_32f buf scaling (u32 (2 * b._samp_avail)) with
  | none => none
  | some out => some { ret := (b._samp_avail : Nat), out := [complexOf out] }

/-- The part of `work` that follows a successful pop. -/
def work_convert (b : Block) (frame : Frame) : Option WorkReturn :=
  if b.rx_channel = RxChannel.RX_DUALCHANNEL then work_dual b frame else work_single b frame

/-! ## The two threads as a transition system -/

/-- Where the capture thread stands in `yunsdr_wait`. -/
inductive CapturePc
  /-- no capture thread has been launched -/
  | idle
  /-- about to evaluate the loop condition `while (running)` -/
  | test
  /-- inside the blocking call `yunsdr_read_samples` -/
  | reading
  /-- the read has returned a non-negative result and left `data` in `rx_buf` -/
  | filled (data : Frame)
  /-- the loop condition was false and `yunsdr_wait` has returned -/
  | exited
  deriving DecidableEq, Repr

/-- Where the consumer stands in `work`. -/
inductive WorkPc
  /-- not inside `work`, no call made yet -/
  | idle
  /-- inside `work`, past the test of `running`, about to take the lock -/
  | entered
  /-- inside `_buf_cond.wait (lock)`, the lock released -/
  | waiting
  /-- the last call has returned -/
  | returned (r : WorkReturn)
  /-- the conversion stage left one of its arrays -/
  | fault
  deriving DecidableEq

/-- State shared by the capture thread, the consumer and the control calls. -/
structure Sys where
  /-- the block as the constructor left it; never changed afterwards -/
  blk : Block
  /-- the live frame pool `_cbuf` -/
  _cbuf : CBuf
  running : Bool
  capture : CapturePc
  consumer : WorkPc
  /-- number of overflow marks `"O"` written to `std::cerr` -/
  overflows : Nat
  /-- number of `_buf_cond.notify_one ()` calls -/
  notifies : Nat
  deriving DecidableEq

/-- The atomic steps of the two threads and of the control calls. -/
inductive Event
  /-- a call of `start ()`, where `ret` is the result of `yunsdr_enable_rx` -/
  | start (ret : Int)
  /-- the assignment `running = false` of `stop ()` -/
  | stop_clear
  /-- the call `_thread.join ()` of `stop ()` returns -/
  | stop_join
  /-- the capture thread evaluates `while (running)` -/
  | cap_test
  /-- the call of `yunsdr_read_samples` returns `ret`, with `data` in `rx_buf` -/
  | cap_read (ret : Int) (data : Frame)
  /-- the locked block of the capture loop, followed by `notify_one` -/
  | cap_push
  /-- the scheduler calls `work (noutput_items, ...)`, which tests `running` -/
  | work_call (noutput_items : Int)
  /-- the consumer takes the lock and evaluates the loop condition for the first time -/
  | work_lock
  /-- the call `_buf_cond.wait (lock)` returns, after a notification or spuriously -/
  | work_wake
  deriving DecidableEq, Repr

/-- The locked block of the capture loop: push `rx_buf`, or mark an overflow. -/
def capture_push (s : Sys) (rx_buf : Frame) : Sys :=
  if ! cb_has_room s._cbuf then
    { s with overflows := s.overflows + 1, notifies := s.notifies + 1, capture := .test }
  else
    match cb_push_back s._cbuf rx_buf with
    | (cb, true) => { s with _cbuf := cb, notifies := s.notifies + 1, capture := .test }
    | (cb, false) =>
      { s with _cbuf := cb, overflows := s.overflows + 1, notifies := s.notifies + 1,
               capture := .test }

/-- One evaluation of the loop condition `! cb_pop_front (&_cbuf, buf)` of `work`
under the lock: on success the frame is converted and `work` returns, otherwise
the consumer goes (back) to `_buf_cond.wait`. -/
def work_poll (s : Sys) : Sys :=
  match cb_pop_front s._cbuf with
  | (cb, some frame) =>
    { s with
      _cbuf := cb
      consumer :=
        match work_convert s.blk frame with
        | some r => .returned r
        | none => .fault }
  | (_, none) => { s with consumer := .waiting }

/-- One step of the live process; `none` when the event cannot happen in the
state or when it ends the process (`aborts`), after which there is no state to
go on from. -/
def step (s : Sys) : Event → Option Sys
  | .start ret =>
    match s.capture with
    | .idle | .exited =>
      if ret < 0 then some s else some { s with running := true, capture := .test }
    | _ => none
  | .stop_clear => some { s with running := false }
  | .stop_join =>
    match s.capture with
    | .exited => some s
    | _ => none
  | .cap_test =>
    match s.capture with
    | .test => some { s with capture := if s.running then .reading else .exited }
    | _ => none
  | .cap_read ret data =>
    match s.capture with
    | .reading => if ret < 0 then none else some { s with capture := .filled data }
    | _ => none
  | .cap_push =>
    match s.capture with
    | .filled data => some (capture_push s data)
    | _ => none
  | .work_call _ =>
    match s.consumer with
    | .idle | .returned _ =>
      if ! s.running then some { s with consumer := .returned { ret := WORK_DONE, out := [] } }
      else some { s with consumer := .entered }
    | _ => none
  | .work_lock =>
    match s.consumer with
    | .entered => some (work_poll s)
    | _ => none
  | .work_wake =>
    match s.consumer with
    | .waiting => some (work_poll s)
    | _ => none

/-- Run a sequence of events. -/
def run (s : Sys) : List Event → Option Sys
  | [] => some s
  | e :: es =>
    match step s e with
    | none => none
    | some s => run s es

/-- The state right after construction. -/
def initial (b : Block) : Sys :=
  { blk := b, _cbuf := b._cbuf, running := false, capture := .idle, consumer := .idle,
    overflows := 0, notifies := 0 }

/-! ## Event sequences used in the statements -/

/-- The events of consecutive capture-loop iterations, one per device read
`(ret, data)`: loop test, return of the read, locked push. -/
def captureRounds : List (Int × Frame) → List Event
  | [] => []
  | r :: rs => .cap_test :: .cap_read r.1 r.2 :: .cap_push :: captureRounds rs

/-- The event is not a call of `start`. -/
def Event.notStart : Event → Bool
  | .start _ => false
  | _ => true

/-- The event is not the locked push of the capture loop. -/
def Event.notPush : Event → Bool
  | .cap_push => false
  | _ => true

/-- The consumer is not inside `work`, so the scheduler may call it. -/
def WorkPc.callable : WorkPc → Bool
  | .idle | .returned _ => true
  | _ => false

/-- The consumer is inside a call of `work` that has passed the test of
`running` and has not returned. -/
def WorkPc.pulling : WorkPc → Bool
  | .entered | .waiting => true
  | _ => false

/-- Number of frames the capture thread can still push without evaluating its
loop condition again: one while a read is in flight or has just returned. -/
def CapturePc.pending : CapturePc → Nat
  | .reading | .filled _ => 1
  | _ => 0

/-- The value is a finite IEEE-754 single-precision number: a significand of at
most 24 bits times a power of two in the format's exponent range. -/
def IsBinary32 (q : ℚ) : Prop :=
  ∃ m e : Int, |m| < 2 ^ 24 ∧ -149 ≤ e ∧ e ≤ 104 ∧ q = m * (2 : ℚ) ^ e

/-! ## Sample data -/

/-- An 8-byte frame holding the shorts `-32768, 32767, 16384, -16384`. -/
def sampleBytes8 : Frame := [0, 128, 255, 127, 0, 64, 0, 192]

/-- A 16-byte frame (eight raw shorts, four words); `tag` tells frames apart. -/
def sampleFrame (tag : Nat) : Frame := [tag, 0, 1, 0, 2, 0, 3, 0, 4, 0, 5, 0, 6, 0, 7, 0]

/-- A dual-channel block with chunk size 8 and four pool slots, in a given
situation of the pool, the flag and the two threads. -/
def sampleSys (queue : List Frame) (running : Bool) (capture : CapturePc)
    (consumer : WorkPc) : Sys :=
  { blk := construct 8 4 true true
    _cbuf := { capacity := 4, sz := 16, queue := queue }
    running := running
    capture := capture
    consumer := consumer
    overflows := 0
    notifies := 0 }

/-! ## Auxiliary facts -/


theorem complexOf_length : ∀ l : List ℚ, (complexOf l).length = l.length / 2
  | [] => by simp [complexOf]
  | [_] => by simp [complexOf]
  | _ :: _ :: rest => by
    simp only [complexOf, List.length_cons, complexOf_length rest]
    omega

theorem complexOf_getElem? : ∀ (l : List ℚ) (k : Nat), 2 * k + 1 < l.length →
    (complexOf l)[k]? = some (l.getD (2 * k) 0, l.getD (2 * k + 1) 0)
  | [], _, h => by simp at h
  | [_], _, h => by simp at h
  | re :: im :: rest, 0, _ => by simp [complexOf]
  | re :: im :: rest, k + 1, h => by
    have h2 : 2 * k + 1 < rest.length := by simp at h; omega
    have := complexOf_getElem? rest k h2
    simp only [complexOf, List.getElem?_cons_succ, this]
    rw [show 2 * (k + 1) = (2 * k + 1) + 1 by ring, show 2 * k + 1 + 1 + 1 = (2 * k + 1 + 1) + 1 by ring]
    simp [List.getD_cons_succ]

theorem complexOf_halves (c : ℚ) : ∀ ws : List Nat,
    complexOf ((halves ws).map fun (v : Int) => (v : ℚ) / c) =
      ws.map fun (w : Nat) => ((toInt16 (w % 65536) : ℚ) / c, (toInt16 (w / 65536) : ℚ) / c)
  | [] => by simp [halves, complexOf]
  | w :: ws => by simp only [halves, List.map_cons, complexOf, complexOf_halves c ws]

theorem halves_length : ∀ ws : List Nat, (halves ws).length = 2 * ws.length
  | [] => rfl
  | w :: ws => by simp [halves, halves_length ws]; omega

theorem cells_length (w : Nat) (bytes : List Nat) : (cells w bytes).length = bytes.length / w := by
  simp [cells]

theorem toInt16_bounds (h : Nat) : -32768 ≤ toInt16 h ∧ toInt16 h ≤ 32767 := by
  unfold toInt16
  split <;> constructor <;> omega

theorem deinterleave_loop_spec (Vector : List Nat) (K : Nat) (hK : K < 2 ^ 32)
    (hV : 2 * K ≤ Vector.length) :
    ∀ (fuel n : Nat) (B0 B1 : List Nat), n ≤ K → K ≤ n + fuel →
      K ≤ B0.length → K ≤ B1.length →
      ∃ o0 o1, deinterleave_loop Vector K fuel
          { number := n, VectorPtr := 2 * n, BufferPtr0 := n, BufferPtr1 := n } B0 B1
            = some (o0, o1) ∧
        o0.length = B0.length ∧ o1.length = B1.length ∧
        (∀ i, o0[i]? = if n ≤ i ∧ i < K then Vector[2 * i]? else B0[i]?) ∧
        (∀ i, o1[i]? = if n ≤ i ∧ i < K then Vector[2 * i + 1]? else B1[i]?) := by
  intro fuel
  induction fuel with
  | zero =>
    intro n B0 B1 hn hf h0 h1
    have : n = K := by omega
    subst this
    refine ⟨B0, B1, ?_, rfl, rfl, ?_, ?_⟩
    · unfold deinterleave_loop; simp
    · intro i; have : ¬ (n ≤ i ∧ i < n) := by omega
      simp [this]
    · intro i; have : ¬ (n ≤ i ∧ i < n) := by omega
      simp [this]
  | succ fuel ih =>
    intro n B0 B1 hn hf h0 h1
    by_cases hlt : n < K
    · have hv0 : 2 * n < Vector.length := by omega
      have hv1 : 2 * n + 1 < Vector.length := by omega
      have hb0 : n < B0.length := by omega
      have hb1 : n < B1.length := by omega
      have hu : u32 (n + 1) = n + 1 := by
        unfold u32; exact Nat.mod_eq_of_lt (by omega)
      obtain ⟨o0, o1, he, hl0, hl1, hg0, hg1⟩ :=
        ih (n + 1) (B0.set n Vector[2 * n]) (B1.set n Vector[2 * n + 1]) (by omega) (by omega)
          (by simpa using h0) (by simpa using h1)
      refine ⟨o0, o1, ?_, by simpa using hl0, by simpa using hl1, ?_, ?_⟩
      · rw [deinterleave_loop]
        simp only [hlt, if_true, List.getElem?_eq_getElem hv0, List.getElem?_eq_getElem hv1,
          store, hb0, hb1, List.length_set, hu]
        rw [show 2 * n + 2 = 2 * (n + 1) by ring]
        exact he
      · intro i
        rw [hg0 i]
        by_cases hi : n + 1 ≤ i ∧ i < K
        · have : n ≤ i ∧ i < K := ⟨by omega, hi.2⟩
          simp [hi, this]
        · by_cases hin : i = n
          · subst hin
            simp [hlt, List.getElem?_set, hb0, List.getElem?_eq_getElem hv0]
          · have : ¬ (n ≤ i ∧ i < K) := by omega
            simp only [hi, this, if_false]
            rw [List.getElem?_set_ne]; omega
      · intro i
        rw [hg1 i]
        by_cases hi : n + 1 ≤ i ∧ i < K
        · have : n ≤ i ∧ i < K := ⟨by omega, hi.2⟩
          simp [hi, this]
        · by_cases hin : i = n
          · subst hin
            simp [hlt, List.getElem?_set, hb1, List.getElem?_eq_getElem hv1]
          · have : ¬ (n ≤ i ∧ i < K) := by omega
            simp only [hi, this, if_false]
            rw [List.getElem?_set_ne]; omega
    · have : n = K := by omega
      subst this
      refine ⟨B0, B1, ?_, rfl, rfl, ?_, ?_⟩
      · rw [deinterleave_loop]; simp
      · intro i; have : ¬ (n ≤ i ∧ i < n) := by omega
        simp [this]
      · intro i; have : ¬ (n ≤ i ∧ i < n) := by omega
        simp [this]

theorem deinterleave_eq (Buffer0 Buffer1 Vector : List Nat) (K : Nat) (hK : K < 2 ^ 32)
    (hV : 2 * K ≤ Vector.length) (h0 : K ≤ Buffer0.length) (h1 : K ≤ Buffer1.length) :
    yunsdr_32u_deinterleave_32u_x2_generic Buffer0 Buffer1 Vector K =
      some ((List.range K).map (fun i => Vector.getD (2 * i) 0) ++ Buffer0.drop K,
            (List.range K).map (fun i => Vector.getD (2 * i + 1) 0) ++ Buffer1.drop K) := by
  obtain ⟨o0, o1, he, hl0, hl1, hg0, hg1⟩ :=
    deinterleave_loop_spec Vector K hK hV K 0 Buffer0 Buffer1 (Nat.zero_le _) (by omega) h0 h1
  simp only [Nat.mul_zero] at he
  unfold yunsdr_32u_deinterleave_32u_x2_generic
  rw [he]
  have e0 : o0 = (List.range K).map (fun i => Vector.getD (2 * i) 0) ++ Buffer0.drop K := by
    apply List.ext_getElem?
    intro i
    rw [hg0 i]
    by_cases hi : i < K
    · have hv : 2 * i < Vector.length := by omega
      simp [hi, List.getElem?_append_left, List.getD_eq_getElem?_getD, List.getElem?_eq_getElem hv]
    · have hi2 : K ≤ i := by omega
      simp [hi, List.getElem?_append_right, hi2, List.getElem?_drop]
  have e1 : o1 = (List.range K).map (fun i => Vector.getD (2 * i + 1) 0) ++ Buffer1.drop K := by
    apply List.ext_getElem?
    intro i
    rw [hg1 i]
    by_cases hi : i < K
    · have hv : 2 * i + 1 < Vector.length := by omega
      simp [hi, List.getElem?_append_left, List.getD_eq_getElem?_getD, List.getElem?_eq_getElem hv]
    · have hi2 : K ≤ i := by omega
      simp [hi, List.getElem?_append_right, hi2, List.getElem?_drop]
  rw [e0, e1]

theorem take_pairs (f : Int → ℚ) : ∀ (n : Nat) (l : List Int), 2 * n ≤ l.length →
    complexOf ((l.take (2 * n)).map f) =
      (List.range n).map fun k => (f (l.getD (2 * k) 0), f (l.getD (2 * k + 1) 0))
  | 0, l, _ => by simp [complexOf]
  | n + 1, [], h => by simp at h
  | n + 1, [_], h => by simp at h; omega
  | n + 1, a :: b :: rest, h => by
    have h2 : 2 * n ≤ rest.length := by simp at h; omega
    rw [show 2 * (n + 1) = 2 * n + 1 + 1 by ring]
    simp only [List.take_succ_cons, List.map_cons, complexOf, take_pairs f n rest h2,
      List.range_succ_eq_map, List.map_map]
    congr 1

theorem work_single_eq (b : Block) (frame : Frame) (hn : 1 ≤ b.noutputs)
    (hlen : frame.length = b._buf_len)
    (hS : b._samp_avail = b._buf_len / 4) (hL : b._buf_len < 2 ^ 32) :
    work_single b frame =
      some { ret := (b._samp_avail : Nat)
             out := [(List.range b._samp_avail).map fun k =>
               (((shorts frame).getD (2 * k) 0 : ℚ) / 32768,
                ((shorts frame).getD (2 * k + 1) 0 : ℚ) / 32768)] } := by
  have hu : u32 (2 * b._samp_avail) = 2 * b._samp_avail := by
    unfold u32; exact Nat.mod_eq_of_lt (by omega)
  have hsl : (shorts frame).length = b._buf_len / 2 := by simp [shorts, cells, hlen]
  have hle : 2 * b._samp_avail ≤ (shorts frame).length := by omega
  have hbuf : (localArray b._buf_len (cells 2 frame)).map toInt16 =
      shorts frame ++ (List.replicate (b._buf_len - (cells 2 frame).length) 0).map toInt16 := by
    simp [localArray, shorts]
  unfold work_single
  rw [if_neg (by omega)]
  simp only [hbuf, hu, volk_16i_s32f_convert_32f]
  rw [if_pos (by rw [List.length_append]; omega), List.take_append_of_le_length hle]
  simp only [take_pairs _ _ _ hle, scaling]

theorem work_dual_eq (b : Block) (frame : Frame) (hn : 2 ≤ b.noutputs)
    (hlen : frame.length = b._buf_len)
    (hS : b._samp_avail = b._buf_len / 4) (hL : b._buf_len < 2 ^ 32)
    (heven : b._samp_avail % 2 = 0) :
    work_dual b frame =
      some { ret := (b._samp_avail / 2 : Nat)
             out := [(List.range (b._samp_avail / 2)).map fun k =>
                       convWord ((cells 4 frame).getD (2 * k) 0),
                     (List.range (b._samp_avail / 2)).map fun k =>
                       convWord ((cells 4 frame).getD (2 * k + 1) 0)] } := by
  have hu1 : u32 (b._samp_avail / 2) = b._samp_avail / 2 := by
    unfold u32; exact Nat.mod_eq_of_lt (by omega)
  have hu2 : u32 b._samp_avail = b._samp_avail := by
    unfold u32; exact Nat.mod_eq_of_lt (by omega)
  have hcl : (cells 4 frame).length = b._samp_avail := by simp [cells, hlen, hS]
  have hd := deinterleave_eq (List.replicate (b._samp_avail / 2) 0)
    (List.replicate (b._samp_avail / 2) 0) (localArray b._buf_len (cells 4 frame))
    (b._samp_avail / 2) (by omega) (by simp [localArray, hcl]; omega) (by simp) (by simp)
  have hget : ∀ i, i < b._samp_avail →
      (localArray b._buf_len (cells 4 frame)).getD i 0 = (cells 4 frame).getD i 0 := by
    intro i hi
    simp [localArray, List.getD_eq_getElem?_getD, List.getElem?_append_left, hcl, hi]
  have hm0 : (List.range (b._samp_avail / 2)).map
        (fun i => (localArray b._buf_len (cells 4 frame)).getD (2 * i) 0) =
      (List.range (b._samp_avail / 2)).map (fun i => (cells 4 frame).getD (2 * i) 0) := by
    apply List.map_congr_left
    intro i hi
    exact hget _ (by have := List.mem_range.1 hi; omega)
  have hm1 : (List.range (b._samp_avail / 2)).map
        (fun i => (localArray b._buf_len (cells 4 frame)).getD (2 * i + 1) 0) =
      (List.range (b._samp_avail / 2)).map (fun i => (cells 4 frame).getD (2 * i + 1) 0) := by
    apply List.map_congr_left
    intro i hi
    exact hget _ (by have := List.mem_range.1 hi; omega)
  have hconv : ∀ ws : List Nat, ws.length = b._samp_avail / 2 →
      volk_16i_s32f_convert_32f (halves ws) scaling b._samp_avail =
        some ((halves ws).map fun (v : Int) => (v : ℚ) / scaling) := by
    intro ws hws
    have hh : (halves ws).length = b._samp_avail := by rw [halves_length, hws]; omega
    unfold volk_16i_s32f_convert_32f
    rw [if_pos (by omega), ← hh, List.take_length]
  unfold work_dual
  rw [if_neg (by omega)]
  simp only [hu1, hu2, hd, hm0, hm1, List.drop_replicate, Nat.sub_self, List.replicate_zero,
    List.append_nil]
  rw [hconv _ (by simp), hconv _ (by simp)]
  simp only [complexOf_halves, List.map_map]
  rfl

/-- The source's constants meet the side conditions used below. -/
theorem BUF_LEN_facts : BUF_LEN * 2 < 2 ^ 32 ∧ BUF_LEN % 4 = 0 ∧ 0 < BUF_NUM := by decide

/-- The sample state with an empty pool is the state right after `start ()`. -/
theorem sampleSys_after_start :
    run (initial (construct 8 4 true true)) [.start 0] = some (sampleSys [] true .test .idle) := by
  decide

/-! ## Claims -/

/-- C1. De-interleave correctness: for a count `K` below `2 ^ 32` and an input of
`2 * K` words, `yunsdr_32u_deinterleave_32u_x2_generic` returns, having written
exactly `K` words to each output: the first `K` cells of the first output are
the even-indexed input words in order, those of the second output the
odd-indexed ones, and every cell from index `K` on keeps its old contents. -/
theorem deinterleave_splits_channels (Buffer0 Buffer1 Vector : List Nat) (K : Nat)
    (hK : K < 2 ^ 32) (hV : Vector.length = 2 * K)
    (h0 : K ≤ Buffer0.length) (h1 : K ≤ Buffer1.length) :
    ∃ out0 out1,
      yunsdr_32u_deinterleave_32u_x2_generic Buffer0 Buffer1 Vector K = some (out0, out1) ∧
      out0.length = Buffer0.length ∧ out1.length = Buffer1.length ∧
      (∀ i, i < K → Vector[2 * i]?.isSome ∧ Vector[2 * i + 1]?.isSome ∧
        out0[i]? = Vector[2 * i]? ∧ out1[i]? = Vector[2 * i + 1]?) ∧
      (∀ i, K ≤ i → out0[i]? = Buffer0[i]? ∧ out1[i]? = Buffer1[i]?) ∧
      out0.take K = (List.range K).map (fun i => Vector.getD (2 * i) 0) ∧
      out1.take K = (List.range K).map (fun i => Vector.getD (2 * i + 1) 0) := by
  obtain ⟨o0, o1, he, hl0, hl1, hg0, hg1⟩ :=
    deinterleave_loop_spec Vector K hK (by omega) K 0 Buffer0 Buffer1 (Nat.zero_le _)
      (by omega) h0 h1
  have hd := deinterleave_eq Buffer0 Buffer1 Vector K hK (by omega) h0 h1
  simp only [Nat.mul_zero] at he
  have he2 : yunsdr_32u_deinterleave_32u_x2_generic Buffer0 Buffer1 Vector K = some (o0, o1) := he
  refine ⟨o0, o1, he2, hl0, hl1, ?_, ?_, ?_, ?_⟩
  · intro i hi
    have hv0 : 2 * i < Vector.length := by omega
    have hv1 : 2 * i + 1 < Vector.length := by omega
    refine ⟨by simp [hv0], by simp [hv1], ?_, ?_⟩
    · rw [hg0 i]; simp [hi]
    · rw [hg1 i]; simp [hi]
  · intro i hi
    have : ¬ i < K := by omega
    refine ⟨?_, ?_⟩
    · rw [hg0 i]; simp [this]
    · rw [hg1 i]; simp [this]
  · rw [he2] at hd
    have := (Prod.mk.inj (Option.some.inj hd)).1
    rw [this, List.take_append_of_le_length (by simp)]
    simp
  · rw [he2] at hd
    have := (Prod.mk.inj (Option.some.inj hd)).2
    rw [this, List.take_append_of_le_length (by simp)]
    simp

/-- Witness for C1: three interleaved pairs, outputs of four and three cells. -/
theorem deinterleave_splits_channels_witness :
    (3 < 2 ^ 32 ∧ [10, 20, 11, 21, 12, 22].length = 2 * 3 ∧
      3 ≤ [0, 0, 0, 99].length ∧ 3 ≤ [7, 7, 7].length) ∧
    yunsdr_32u_deinterleave_32u_x2_generic [0, 0, 0, 99] [7, 7, 7] [10, 20, 11, 21, 12, 22] 3 =
      some ([10, 11, 12, 99], [20, 21, 22]) ∧
    ∃ out0 out1,
      yunsdr_32u_deinterleave_32u_x2_generic [0, 0, 0, 99] [7, 7, 7] [10, 20, 11, 21, 12, 22] 3
        = some (out0, out1) ∧
      out0.length = [0, 0, 0, 99].length ∧ out1.length = [7, 7, 7].length ∧
      (∀ i, i < 3 → [10, 20, 11, 21, 12, 22][2 * i]?.isSome ∧
        [10, 20, 11, 21, 12, 22][2 * i + 1]?.isSome ∧
        out0[i]? = [10, 20, 11, 21, 12, 22][2 * i]? ∧
        out1[i]? = [10, 20, 11, 21, 12, 22][2 * i + 1]?) ∧
      (∀ i, 3 ≤ i → out0[i]? = [0, 0, 0, 99][i]? ∧ out1[i]? = [7, 7, 7][i]?) ∧
      out0.take 3 = (List.range 3).map (fun i => [10, 20, 11, 21, 12, 22].getD (2 * i) 0) ∧
      out1.take 3 = (List.range 3).map (fun i => [10, 20, 11, 21, 12, 22].getD (2 * i + 1) 0) :=
  ⟨⟨by decide, by decide, by decide, by decide⟩, by decide,
    deinterleave_splits_channels [0, 0, 0, 99] [7, 7, 7] [10, 20, 11, 21, 12, 22] 3
      (by decide) (by decide) (by decide) (by decide)⟩

theorem construct_single (bufLen bufNum : Nat) (rx1_en rx2_en : Bool)
    (hmode : (rx1_en && rx2_en) = false) :
    (construct bufLen bufNum rx1_en rx2_en).rx_channel ≠ RxChannel.RX_DUALCHANNEL ∧
    (construct bufLen bufNum rx1_en rx2_en)._buf_len = bufLen ∧
    (construct bufLen bufNum rx1_en rx2_en)._samp_avail = bufLen / 4 := by
  cases rx1_en <;> cases rx2_en <;> simp_all [construct, BYTES_PER_SAMPLE]

theorem construct_noutputs (bufLen bufNum : Nat) (rx1_en rx2_en : Bool) :
    (construct bufLen bufNum rx1_en rx2_en).noutputs = rx1_en.toNat + rx2_en.toNat := rfl

theorem construct_has_output (bufLen bufNum : Nat) (rx1_en rx2_en : Bool)
    (hen : (rx1_en || rx2_en) = true) :
    1 ≤ (construct bufLen bufNum rx1_en rx2_en).noutputs := by
  rw [construct_noutputs]
  cases rx1_en <;> cases rx2_en <;> simp_all

theorem construct_dual (bufLen bufNum : Nat) :
    (construct bufLen bufNum true true).rx_channel = RxChannel.RX_DUALCHANNEL ∧
    (construct bufLen bufNum true true)._buf_len = bufLen * 2 ∧
    (construct bufLen bufNum true true)._samp_avail = bufLen * 2 / 4 := by
  simp [construct, BYTES_PER_SAMPLE]

theorem int16_scaled (v : Int) (hlo : -32768 ≤ v) (hhi : v ≤ 32767) :
    -1 ≤ (v : ℚ) / 32768 ∧ (v : ℚ) / 32768 < 1 ∧ IsBinary32 ((v : ℚ) / 32768) := by
  have h1 : (-32768 : ℚ) ≤ (v : ℚ) := by exact_mod_cast hlo
  have h2 : (v : ℚ) ≤ 32767 := by exact_mod_cast hhi
  refine ⟨?_, ?_, v, -15, ?_, by norm_num, by norm_num, ?_⟩
  · rw [le_div_iff₀ (by norm_num)]; linarith
  · rw [div_lt_iff₀ (by norm_num)]; linarith
  · rw [abs_lt]; constructor <;> omega
  · rw [zpow_neg]; norm_num [div_eq_mul_inv]

theorem shorts_getElem? (frame : Frame) (j : Nat) (hj : j < frame.length / 2) :
    ∃ v : Int, (shorts frame)[j]? = some v ∧ (shorts frame).getD j 0 = v ∧
      -32768 ≤ v ∧ v ≤ 32767 := by
  have hl : j < (shorts frame).length := by simpa [shorts, cells] using hj
  refine ⟨(shorts frame)[j], List.getElem?_eq_getElem hl, ?_, ?_⟩
  · simp [List.getD_eq_getElem?_getD, List.getElem?_eq_getElem hl]
  · simp only [shorts, List.getElem_map]
    exact toInt16_bounds _

/-- C2. Single-channel conversion: when exactly one of `rx1_en`, `rx2_en` is set,
`work` turns a popped frame of `bufLen` bytes, read as the 16-bit values
`shorts frame`, into `bufLen / 4` complex samples on its one output; sample `k`
is `(s[2k] / 32768, s[2k+1] / 32768)`, both components lie in `[-1, 1)` and are
single-precision numbers, and the conversion maps every 16-bit `v` to the exact
rational `v / 32768`. -/
theorem work_single_channel_conversion (bufLen bufNum : Nat) (rx1_en rx2_en : Bool)
    (hen : (rx1_en || rx2_en) = true) (hmode : (rx1_en && rx2_en) = false)
    (hL : bufLen < 2 ^ 32)
    (frame : Frame) (hlen : frame.length = bufLen) :
    ∃ out : List (ℚ × ℚ),
      work_convert (construct bufLen bufNum rx1_en rx2_en) frame =
        some { ret := (bufLen / 4 : Nat), out := [out] } ∧
      out.length = bufLen / 4 ∧
      (∀ k, k < bufLen / 4 → ∃ re im : Int,
        (shorts frame)[2 * k]? = some re ∧ (shorts frame)[2 * k + 1]? = some im ∧
        out[k]? = some ((re : ℚ) / 32768, (im : ℚ) / 32768) ∧
        -1 ≤ (re : ℚ) / 32768 ∧ (re : ℚ) / 32768 < 1 ∧
        -1 ≤ (im : ℚ) / 32768 ∧ (im : ℚ) / 32768 < 1) ∧
      (∀ v : Int, -32768 ≤ v → v ≤ 32767 →
        volk_16i_s32f_convert_32f [v] scaling 1 = some [(v : ℚ) / 32768] ∧
        -1 ≤ (v : ℚ) / 32768 ∧ (v : ℚ) / 32768 < 1 ∧ IsBinary32 ((v : ℚ) / 32768)) := by
  obtain ⟨hch, hbl, hsa⟩ := construct_single bufLen bufNum rx1_en rx2_en hmode
  have hw := work_single_eq (construct bufLen bufNum rx1_en rx2_en) frame
    (construct_has_output bufLen bufNum rx1_en rx2_en hen) (by rw [hbl, hlen])
    (by rw [hsa, hbl]) (by rw [hbl]; exact hL)
  rw [hsa] at hw
  refine ⟨(List.range (bufLen / 4)).map fun k =>
      (((shorts frame).getD (2 * k) 0 : ℚ) / 32768,
       ((shorts frame).getD (2 * k + 1) 0 : ℚ) / 32768), ?_, ?_, ?_, ?_⟩
  · unfold work_convert; rw [if_neg hch]; exact hw
  · simp
  · intro k hk
    obtain ⟨re, hre, hre2, hre3, hre4⟩ := shorts_getElem? frame (2 * k) (by omega)
    obtain ⟨im, him, him2, him3, him4⟩ := shorts_getElem? frame (2 * k + 1) (by omega)
    have b1 := int16_scaled re hre3 hre4
    have b2 := int16_scaled im him3 him4
    refine ⟨re, im, hre, him, ?_, b1.1, b1.2.1, b2.1, b2.2.1⟩
    simp [hk, hre, him]
  · intro v hlo hhi
    refine ⟨?_, int16_scaled v hlo hhi⟩
    simp [volk_16i_s32f_convert_32f, scaling]

/-- Witness for C2: an 8-byte frame with only RX2 enabled. -/
theorem work_single_channel_conversion_witness :
    ((false || true) = true ∧ (false && true) = false ∧ 8 < 2 ^ 32 ∧
      sampleBytes8.length = 8) ∧
    ∃ out : List (ℚ × ℚ),
      work_convert (construct 8 4 false true) sampleBytes8 =
        some { ret := (8 / 4 : Nat), out := [out] } ∧
      out.length = 8 / 4 ∧
      (∀ k, k < 8 / 4 → ∃ re im : Int,
        (shorts sampleBytes8)[2 * k]? = some re ∧ (shorts sampleBytes8)[2 * k + 1]? = some im ∧
        out[k]? = some ((re : ℚ) / 32768, (im : ℚ) / 32768) ∧
        -1 ≤ (re : ℚ) / 32768 ∧ (re : ℚ) / 32768 < 1 ∧
        -1 ≤ (im : ℚ) / 32768 ∧ (im : ℚ) / 32768 < 1) ∧
      (∀ v : Int, -32768 ≤ v → v ≤ 32767 →
        volk_16i_s32f_convert_32f [v] scaling 1 = some [(v : ℚ) / 32768] ∧
        -1 ≤ (v : ℚ) / 32768 ∧ (v : ℚ) / 32768 < 1 ∧ IsBinary32 ((v : ℚ) / 32768)) :=
  ⟨⟨by decide, by decide, by decide, by decide⟩,
    work_single_channel_conversion 8 4 false true (by decide) (by decide) (by decide)
      sampleBytes8 (by decide)⟩

theorem cells_getElem? (w : Nat) (frame : Frame) (j : Nat) (hj : j < frame.length / w) :
    ∃ a : Nat, (cells w frame)[j]? = some a ∧ (cells w frame).getD j 0 = a := by
  have hl : j < (cells w frame).length := by simpa [cells] using hj
  exact ⟨(cells w frame)[j], List.getElem?_eq_getElem hl,
    by simp [List.getD_eq_getElem?_getD, List.getElem?_eq_getElem hl]⟩

/-- C3. Dual-channel delivery: with both channels enabled and a chunk size
divisible by four, `work` turns a popped frame of `W = frameLen / 4` words
`w = cells 4 frame` into exactly `W / 2` complex samples on each of the two
outputs; sample `k` of output 0 is the scale conversion of `w[2k]`, sample `k`
of output 1 that of `w[2k+1]`, and `2 * (W / 2) = W`, so each word is delivered
once.  Both stages stay inside their arrays: the de-interleaver succeeds on the
`W` words of the frame with two `W / 2`-word buffers, and the conversion of `W`
shorts succeeds on each of those buffers. -/
theorem work_dual_channel_delivery (bufLen bufNum : Nat) (hL : bufLen * 2 < 2 ^ 32)
    (hdiv : bufLen % 4 = 0) (frame : Frame) (hlen : frame.length = bufLen * 2) :
    ∃ out0 out1 : List (ℚ × ℚ),
      work_convert (construct bufLen bufNum true true) frame =
        some { ret := (frame.length / 4 / 2 : Nat), out := [out0, out1] } ∧
      (cells 4 frame).length = frame.length / 4 ∧
      out0.length = frame.length / 4 / 2 ∧ out1.length = frame.length / 4 / 2 ∧
      2 * (frame.length / 4 / 2) = frame.length / 4 ∧
      (∀ k, k < frame.length / 4 / 2 → ∃ a c : Nat,
        (cells 4 frame)[2 * k]? = some a ∧ (cells 4 frame)[2 * k + 1]? = some c ∧
        out0[k]? = some (convWord a) ∧ out1[k]? = some (convWord c)) ∧
      ∃ rx1 rx2 : List Nat,
        yunsdr_32u_deinterleave_32u_x2_generic (List.replicate (frame.length / 4 / 2) 0)
          (List.replicate (frame.length / 4 / 2) 0) (cells 4 frame) (frame.length / 4 / 2)
            = some (rx1, rx2) ∧
        rx1.length = frame.length / 4 / 2 ∧ rx2.length = frame.length / 4 / 2 ∧
        (volk_16i_s32f_convert_32f (halves rx1) scaling (frame.length / 4)).map complexOf
          = some out0 ∧
        (volk_16i_s32f_convert_32f (halves rx2) scaling (frame.length / 4)).map complexOf
          = some out1 := by
  obtain ⟨hch, hbl, hsa⟩ := construct_dual bufLen bufNum
  have hW : frame.length / 4 = bufLen * 2 / 4 := by rw [hlen]
  have hw := work_dual_eq (construct bufLen bufNum true true) frame
    (by rw [construct_noutputs]; decide) (by rw [hbl, hlen])
    (by rw [hsa, hbl]) (by rw [hbl]; exact hL) (by rw [hsa]; omega)
  rw [hsa, ← hW] at hw
  have hcl : (cells 4 frame).length = frame.length / 4 := cells_length 4 frame
  have heven : 2 * (frame.length / 4 / 2) = frame.length / 4 := by omega
  have hd := deinterleave_eq (List.replicate (frame.length / 4 / 2) 0)
    (List.replicate (frame.length / 4 / 2) 0) (cells 4 frame) (frame.length / 4 / 2)
    (by omega) (by omega) (by simp) (by simp)
  simp only [List.drop_replicate, Nat.sub_self, List.replicate_zero, List.append_nil] at hd
  have hconv : ∀ ws : List Nat, ws.length = frame.length / 4 / 2 →
      (volk_16i_s32f_convert_32f (halves ws) scaling (frame.length / 4)).map complexOf =
        some (ws.map convWord) := by
    intro ws hws
    have hh : (halves ws).length = frame.length / 4 := by rw [halves_length, hws]; omega
    unfold volk_16i_s32f_convert_32f
    rw [if_pos (by omega), ← hh, List.take_length, Option.map_some', complexOf_halves]
    rfl
  refine ⟨(List.range (frame.length / 4 / 2)).map fun k =>
      convWord ((cells 4 frame).getD (2 * k) 0),
    (List.range (frame.length / 4 / 2)).map fun k =>
      convWord ((cells 4 frame).getD (2 * k + 1) 0), ?_, hcl, by simp, by simp, heven, ?_,
    _, _, hd, by simp, by simp, ?_, ?_⟩
  · unfold work_convert; rw [if_pos hch]; exact hw
  · intro k hk
    obtain ⟨a, ha, ha2⟩ := cells_getElem? 4 frame (2 * k) (by omega)
    obtain ⟨c, hc, hc2⟩ := cells_getElem? 4 frame (2 * k + 1) (by omega)
    refine ⟨a, c, ha, hc, ?_, ?_⟩
    · simp [hk, ha]
    · simp [hk, hc]
  · rw [hconv _ (by simp), List.map_map]; rfl
  · rw [hconv _ (by simp), List.map_map]; rfl

/-- Witness for C3: chunk size 8 and a 16-byte frame of four words. -/
theorem work_dual_channel_delivery_witness :
    (8 * 2 < 2 ^ 32 ∧ 8 % 4 = 0 ∧
      (sampleFrame 1).length = 8 * 2) ∧
    ∃ out0 out1 : List (ℚ × ℚ),
      work_convert (construct 8 4 true true) (sampleFrame 1) =
        some { ret := ((sampleFrame 1).length / 4 / 2 : Nat),
               out := [out0, out1] } ∧
      (cells 4 (sampleFrame 1)).length =
        (sampleFrame 1).length / 4 ∧
      out0.length = (sampleFrame 1).length / 4 / 2 ∧
      out1.length = (sampleFrame 1).length / 4 / 2 ∧
      2 * ((sampleFrame 1).length / 4 / 2) =
        (sampleFrame 1).length / 4 ∧
      (∀ k, k < (sampleFrame 1).length / 4 / 2 → ∃ a c : Nat,
        (cells 4 (sampleFrame 1))[2 * k]? = some a ∧
        (cells 4 (sampleFrame 1))[2 * k + 1]? = some c ∧
        out0[k]? = some (convWord a) ∧ out1[k]? = some (convWord c)) ∧
      ∃ rx1 rx2 : List Nat,
        yunsdr_32u_deinterleave_32u_x2_generic
          (List.replicate ((sampleFrame 1).length / 4 / 2) 0)
          (List.replicate ((sampleFrame 1).length / 4 / 2) 0)
          (cells 4 (sampleFrame 1))
          ((sampleFrame 1).length / 4 / 2) = some (rx1, rx2) ∧
        rx1.length = (sampleFrame 1).length / 4 / 2 ∧
        rx2.length = (sampleFrame 1).length / 4 / 2 ∧
        (volk_16i_s32f_convert_32f (halves rx1) scaling
          ((sampleFrame 1).length / 4)).map complexOf
            = some out0 ∧
        (volk_16i_s32f_convert_32f (halves rx2) scaling
          ((sampleFrame 1).length / 4)).map complexOf
            = some out1 :=
  ⟨⟨by decide, by decide, by decide⟩,
    work_dual_channel_delivery 8 4 (by decide) (by decide)
      (sampleFrame 1) (by decide)⟩

theorem work_poll_nonempty (s : Sys) (frame : Frame) (rest : List Frame)
    (hq : s._cbuf.queue = frame :: rest) :
    work_poll s =
      { s with
        _cbuf := { s._cbuf with queue := rest }
        consumer :=
          match work_convert s.blk frame with
          | some r => .returned r
          | none => .fault } := by
  simp [work_poll, cb_pop_front, hq]

theorem work_poll_empty (s : Sys) (hq : s._cbuf.queue = []) :
    work_poll s = { s with consumer := .waiting } := by
  simp [work_poll, cb_pop_front, hq]

theorem step_work_call_cases (s : Sys) (n : Int) (s' : Sys)
    (h : step s (.work_call n) = some s') :
    s.consumer.callable = true ∧
    ((s.running = false ∧
        s' = { s with consumer := .returned { ret := WORK_DONE, out := [] } }) ∨
      (s.running = true ∧ s' = { s with consumer := .entered })) := by
  simp only [step] at h
  split at h
  all_goals first
    | (rename_i hc
       refine ⟨by simp [hc, WorkPc.callable], ?_⟩
       split at h
       · rename_i hr
         simp only [Option.some.injEq] at h
         exact Or.inl ⟨by simpa using hr, h.symm⟩
       · rename_i hr
         simp only [Option.some.injEq] at h
         exact Or.inr ⟨by simpa using hr, h.symm⟩)
    | simp at h

theorem step_cap_read_cases (s : Sys) (ret : Int) (data : Frame) (s' : Sys)
    (h : step s (.cap_read ret data) = some s') :
    s.capture = .reading ∧ ¬ ret < 0 ∧ s' = { s with capture := .filled data } := by
  simp only [step] at h
  split at h
  · rename_i hc
    split at h
    · simp at h
    · rename_i hr
      simp only [Option.some.injEq] at h
      exact ⟨hc, hr, h.symm⟩
  · simp at h

theorem step_work_lock_cases (s s' : Sys) (h : step s .work_lock = some s') :
    s.consumer = .entered ∧ s' = work_poll s := by
  simp only [step] at h
  split at h <;> simp at h
  rename_i hc
  exact ⟨hc, h.symm⟩

theorem step_work_wake_cases (s s' : Sys) (h : step s .work_wake = some s') :
    s.consumer = .waiting ∧ s' = work_poll s := by
  simp only [step] at h
  split at h <;> simp at h
  rename_i hc
  exact ⟨hc, h.symm⟩

theorem step_work_call_running (s : Sys) (n : Int) (hrun : s.running = true)
    (hc : s.consumer.callable = true) :
    step s (.work_call n) = some { s with consumer := .entered } := by
  unfold step
  cases hcs : s.consumer <;> simp_all [WorkPc.callable]

theorem step_work_call_stopped (s : Sys) (n : Int) (hrun : s.running = false)
    (hc : s.consumer.callable = true) :
    step s (.work_call n) =
      some { s with consumer := .returned { ret := WORK_DONE, out := [] } } := by
  unfold step
  cases hcs : s.consumer <;> simp_all [WorkPc.callable]

theorem step_work_lock (s : Sys) (hc : s.consumer = .entered) :
    step s .work_lock = some (work_poll s) := by
  simp [step, hc]

theorem step_work_wake (s : Sys) (hc : s.consumer = .waiting) :
    step s .work_wake = some (work_poll s) := by
  simp [step, hc]

theorem work_poll_consumer (s : Sys) (c : WorkPc) :
    work_poll { s with consumer := c } = work_poll s := by
  unfold work_poll
  split <;> rename_i h <;> simp only at h <;> simp [h]

theorem run_work_call_lock (s : Sys) (n : Int) (hrun : s.running = true)
    (hc : s.consumer.callable = true) :
    run s [.work_call n, .work_lock] = some (work_poll s) := by
  simp only [run, step_work_call_running s n hrun hc]
  rw [step_work_lock _ rfl, work_poll_consumer]

theorem work_convert_construct (bufLen bufNum : Nat) (rx1_en rx2_en : Bool)
    (hen : (rx1_en || rx2_en) = true) (hL : bufLen * 2 < 2 ^ 32) (hdiv : (rx1_en && rx2_en) = true → bufLen % 4 = 0)
    (frame : Frame) (hlen : frame.length = (construct bufLen bufNum rx1_en rx2_en)._buf_len) :
    ∃ r : WorkReturn, work_convert (construct bufLen bufNum rx1_en rx2_en) frame = some r ∧
      r.ret = ((if rx1_en && rx2_en then (construct bufLen bufNum rx1_en rx2_en)._buf_len / 8
        else (construct bufLen bufNum rx1_en rx2_en)._buf_len / 4 : Nat) : Int) ∧
      r.out.length = (if rx1_en && rx2_en then 2 else 1) ∧
      ∀ o ∈ r.out, (o.length : Int) = r.ret := by
  by_cases hmode : (rx1_en && rx2_en) = true
  · have h1 : rx1_en = true := by simp_all
    have h2 : rx2_en = true := by simp_all
    subst h1; subst h2
    obtain ⟨hch, hbl, hsa⟩ := construct_dual bufLen bufNum
    have hw := work_dual_eq (construct bufLen bufNum true true) frame
      (by rw [construct_noutputs]; decide) hlen
      (by rw [hsa, hbl]) (by rw [hbl]; exact hL) (by rw [hsa]; have := hdiv rfl; omega)
    refine ⟨_, by unfold work_convert; rw [if_pos hch]; exact hw, ?_, by simp, ?_⟩
    · simp only [hsa, hbl, Bool.and_self, if_true]
      congr 1; omega
    · intro o ho
      simp only [List.mem_cons, List.mem_singleton, List.not_mem_nil, or_false] at ho
      rcases ho with rfl | rfl <;> simp
  · have hmode2 : (rx1_en && rx2_en) = false := by simpa using hmode
    obtain ⟨hch, hbl, hsa⟩ := construct_single bufLen bufNum rx1_en rx2_en hmode2
    have hw := work_single_eq (construct bufLen bufNum rx1_en rx2_en) frame
      (construct_has_output bufLen bufNum rx1_en rx2_en hen) hlen
      (by rw [hsa, hbl]) (by rw [hbl]; omega)
    refine ⟨_, by unfold work_convert; rw [if_neg hch]; exact hw, ?_, by simp [hmode2], ?_⟩
    · simp only [hsa, hbl, hmode2]; rfl
    · intro o ho
      simp only [List.mem_singleton] at ho
      subst ho; simp

/-- C4. One frame per pull: for a block built by the constructor with a channel
enabled (chunk size divisible by four in dual-channel mode), a running stream and a pool whose
oldest frame has `_buf_len` bytes, every call of `work`, whatever
`noutput_items` is, returns at its first evaluation of the loop condition, and
so does a call that has passed the flag test or is woken from waiting; it
returns after popping exactly that frame (the frames behind it stay queued),
with `_buf_len / 4` items in single-channel mode and `_buf_len / 8` in
dual-channel mode, and every output port receives that many samples. -/
theorem work_delivers_one_frame (bufLen bufNum : Nat) (rx1_en rx2_en : Bool)
    (hen : (rx1_en || rx2_en) = true) (hL : bufLen * 2 < 2 ^ 32) (hdiv : (rx1_en && rx2_en) = true → bufLen % 4 = 0)
    (s : Sys) (hb : s.blk = construct bufLen bufNum rx1_en rx2_en) (hrun : s.running = true)
    (frame : Frame) (rest : List Frame) (hq : s._cbuf.queue = frame :: rest)
    (hlen : frame.length = s.blk._buf_len) :
    ∃ r : WorkReturn,
      (s.consumer.callable = true → ∀ noutput_items : Int,
        run s [.work_call noutput_items, .work_lock] =
          some { s with _cbuf := { s._cbuf with queue := rest }, consumer := .returned r }) ∧
      (s.consumer = .entered →
        step s .work_lock =
          some { s with _cbuf := { s._cbuf with queue := rest }, consumer := .returned r }) ∧
      (s.consumer = .waiting →
        step s .work_wake =
          some { s with _cbuf := { s._cbuf with queue := rest }, consumer := .returned r }) ∧
      work_convert s.blk frame = some r ∧
      r.ret = ((if rx1_en && rx2_en then s.blk._buf_len / 8 else s.blk._buf_len / 4 : Nat) : Int) ∧
      r.out.length = (if rx1_en && rx2_en then 2 else 1) ∧
      ∀ o ∈ r.out, (o.length : Int) = r.ret := by
  rw [hb] at hlen
  obtain ⟨r, hr, hret, hout, hlens⟩ :=
    work_convert_construct bufLen bufNum rx1_en rx2_en hen hL hdiv frame hlen
  have hp := work_poll_nonempty s frame rest hq
  rw [hb, hr] at hp
  refine ⟨r, ?_, ?_, ?_, by rw [hb]; exact hr, by rw [hb]; exact hret, hout, hlens⟩
  · intro hc n
    rw [run_work_call_lock s n hrun hc, hp, ← hb]
  · intro hc
    rw [step_work_lock s hc, hp, ← hb]
  · intro hc
    rw [step_work_wake s hc, hp, ← hb]

/-- Witness for C4: a running dual-channel stream with two frames queued. -/
theorem work_delivers_one_frame_witness :
    ((true || true) = true ∧ 8 * 2 < 2 ^ 32 ∧ ((true && true) = true → 8 % 4 = 0) ∧
      (sampleSys [sampleFrame 1, sampleFrame 2] true .test .idle).blk = construct 8 4 true true ∧
      (sampleSys [sampleFrame 1, sampleFrame 2] true .test .idle).running = true ∧
      (sampleSys [sampleFrame 1, sampleFrame 2] true .test .idle)._cbuf.queue =
        sampleFrame 1 :: [sampleFrame 2] ∧
      (sampleFrame 1).length =
        (sampleSys [sampleFrame 1, sampleFrame 2] true .test .idle).blk._buf_len) ∧
    ∃ r : WorkReturn,
      ((sampleSys [sampleFrame 1, sampleFrame 2] true .test .idle).consumer.callable = true →
        ∀ noutput_items : Int,
          run (sampleSys [sampleFrame 1, sampleFrame 2] true .test .idle)
              [.work_call noutput_items, .work_lock] =
            some { sampleSys [sampleFrame 1, sampleFrame 2] true .test .idle with
              _cbuf := { (sampleSys [sampleFrame 1, sampleFrame 2] true .test .idle)._cbuf with
                queue := [sampleFrame 2] }
              consumer := .returned r }) ∧
      ((sampleSys [sampleFrame 1, sampleFrame 2] true .test .idle).consumer = .entered →
        step (sampleSys [sampleFrame 1, sampleFrame 2] true .test .idle) .work_lock =
          some { sampleSys [sampleFrame 1, sampleFrame 2] true .test .idle with
            _cbuf := { (sampleSys [sampleFrame 1, sampleFrame 2] true .test .idle)._cbuf with
              queue := [sampleFrame 2] }
            consumer := .returned r }) ∧
      ((sampleSys [sampleFrame 1, sampleFrame 2] true .test .idle).consumer = .waiting →
        step (sampleSys [sampleFrame 1, sampleFrame 2] true .test .idle) .work_wake =
          some { sampleSys [sampleFrame 1, sampleFrame 2] true .test .idle with
            _cbuf := { (sampleSys [sampleFrame 1, sampleFrame 2] true .test .idle)._cbuf with
              queue := [sampleFrame 2] }
            consumer := .returned r }) ∧
      work_convert (sampleSys [sampleFrame 1, sampleFrame 2] true .test .idle).blk
        (sampleFrame 1) = some r ∧
      r.ret = ((if true && true then
          (sampleSys [sampleFrame 1, sampleFrame 2] true .test .idle).blk._buf_len / 8
        else (sampleSys [sampleFrame 1, sampleFrame 2] true .test .idle).blk._buf_len / 4 : Nat)
          : Int) ∧
      r.out.length = (if true && true then 2 else 1) ∧
      ∀ o ∈ r.out, (o.length : Int) = r.ret :=
  ⟨⟨by decide, by decide, by decide, rfl, rfl, rfl, by decide⟩,
    work_delivers_one_frame 8 4 true true (by decide) (by decide) (by decide)
      (sampleSys [sampleFrame 1, sampleFrame 2] true .test .idle) rfl rfl
      (sampleFrame 1) [sampleFrame 2] rfl (by decide)⟩

theorem run_induction (C : Event → Bool) (P : Sys → Prop)
    (hstep : ∀ s e s', C e = true → P s → step s e = some s' → P s') :
    ∀ (es : List Event) (s s' : Sys), es.all C = true → P s → run s es = some s' → P s'
  | [], s, s', _, hP, h => by
    simp only [run, Option.some.injEq] at h
    exact h ▸ hP
  | e :: es, s, s', hC, hP, h => by
    simp only [List.all_cons, Bool.and_eq_true] at hC
    simp only [run] at h
    cases hs : step s e with
    | none => simp [hs] at h
    | some s1 =>
      simp only [hs] at h
      exact run_induction C P hstep es s1 s' hC.2 (hstep s e s1 hC.1 hP hs) h

theorem work_poll_frame (s : Sys) :
    (work_poll s).blk = s.blk ∧ (work_poll s).running = s.running ∧
    (work_poll s).capture = s.capture ∧ (work_poll s).overflows = s.overflows ∧
    (work_poll s).notifies = s.notifies ∧
    (work_poll s)._cbuf.capacity = s._cbuf.capacity ∧
    (work_poll s)._cbuf.queue = s._cbuf.queue.drop 1 := by
  cases hq : s._cbuf.queue with
  | nil => rw [work_poll_empty s hq]; simp [hq]
  | cons f rest => rw [work_poll_nonempty s f rest hq]; simp [hq]

theorem capture_push_frame (s : Sys) (f : Frame) :
    (capture_push s f).blk = s.blk ∧ (capture_push s f).running = s.running ∧
    (capture_push s f).consumer = s.consumer ∧ (capture_push s f).capture = .test ∧
    (capture_push s f).notifies = s.notifies + 1 ∧
    (capture_push s f)._cbuf.capacity = s._cbuf.capacity ∧
    ((s._cbuf.queue.length < s._cbuf.capacity ∧
        (capture_push s f)._cbuf.queue = s._cbuf.queue ++ [f] ∧
        (capture_push s f).overflows = s.overflows) ∨
     (s._cbuf.capacity ≤ s._cbuf.queue.length ∧
        (capture_push s f)._cbuf.queue = s._cbuf.queue ∧
        (capture_push s f).overflows = s.overflows + 1)) := by
  by_cases h : s._cbuf.queue.length < s._cbuf.capacity
  · simp [capture_push, cb_has_room, cb_push_back, h]
  · simp [capture_push, cb_has_room, h]
    omega

theorem step_running (s : Sys) (e : Event) (s' : Sys) (hC : e.notStart = true)
    (hP : s.running = false) (h : step s e = some s') : s'.running = false := by
  have hw := work_poll_frame s
  cases e with
  | start ret => simp [Event.notStart] at hC
  | stop_clear => simp only [step, Option.some.injEq] at h; subst h; rfl
  | stop_join =>
    simp only [step] at h
    split at h <;> simp_all
  | cap_test =>
    simp only [step] at h
    split at h <;> simp at h
    subst h; exact hP
  | cap_read ret data =>
    obtain ⟨_, _, rfl⟩ := step_cap_read_cases s ret data s' h
    exact hP
  | cap_push =>
    simp only [step] at h
    split at h <;> simp at h
    subst h; rw [(capture_push_frame s _).2.1]; exact hP
  | work_call n =>
    obtain ⟨_, ⟨_, rfl⟩ | ⟨_, rfl⟩⟩ := step_work_call_cases s n s' h <;> exact hP
  | work_lock =>
    obtain ⟨_, rfl⟩ := step_work_lock_cases s s' h
    rw [hw.2.1]; exact hP
  | work_wake =>
    obtain ⟨_, rfl⟩ := step_work_wake_cases s s' h
    rw [hw.2.1]; exact hP

theorem run_running (es : List Event) (s s' : Sys) (hes : es.all Event.notStart = true)
    (hP : s.running = false) (h : run s es = some s') : s'.running = false :=
  run_induction Event.notStart (fun t => t.running = false) step_running es s s' hes hP h

/-- C5. End of stream when not running: with the running flag false, a call of
`work` returns `WORK_DONE` in that very step for every pool state; the pool and
every other part of the state stay as they were and no sample is written.  The
flag stays false over every sequence of events that holds no `start`, so this
covers each pull issued after `stop ()` has cleared the flag and returned. -/
theorem work_done_when_not_running (s : Sys) (hrun : s.running = false)
    (hc : s.consumer.callable = true) (noutput_items : Int) :
    step s (.work_call noutput_items) =
      some { s with consumer := .returned { ret := WORK_DONE, out := [] } } ∧
    (∀ s1, step s (.work_call noutput_items) = some s1 →
      s1._cbuf = s._cbuf ∧ s1.consumer = .returned { ret := WORK_DONE, out := [] } ∧
      s1.consumer ≠ .waiting) ∧
    (∀ (es : List Event) (s1 : Sys), es.all Event.notStart = true → run s es = some s1 →
      s1.running = false) ∧
    (∀ s0 : Sys, (step s0 .stop_clear).map (fun t => t.running) = some false) := by
  have hstep := step_work_call_stopped s noutput_items hrun hc
  refine ⟨hstep, ?_, ?_, ?_⟩
  · intro s1 h1
    rw [hstep] at h1
    simp only [Option.some.injEq] at h1
    subst h1
    simp
  · intro es s1 hes h1
    exact run_running es s s1 hes hrun h1
  · intro s0
    simp [step]

/-- Witness for C5: a stopped stream with a frame still queued. -/
theorem work_done_when_not_running_witness :
    ((sampleSys [sampleFrame 1] false .exited .idle).running = false ∧
      (sampleSys [sampleFrame 1] false .exited .idle).consumer.callable = true) ∧
    (step (sampleSys [sampleFrame 1] false .exited .idle) (.work_call 4096) =
      some { sampleSys [sampleFrame 1] false .exited .idle with
        consumer := .returned { ret := WORK_DONE, out := [] } } ∧
    (∀ s1, step (sampleSys [sampleFrame 1] false .exited .idle) (.work_call 4096) = some s1 →
      s1._cbuf = (sampleSys [sampleFrame 1] false .exited .idle)._cbuf ∧
      s1.consumer = .returned { ret := WORK_DONE, out := [] } ∧
      s1.consumer ≠ .waiting) ∧
    (∀ (es : List Event) (s1 : Sys), es.all Event.notStart = true →
      run (sampleSys [sampleFrame 1] false .exited .idle) es = some s1 →
      s1.running = false) ∧
    (∀ s0 : Sys, (step s0 .stop_clear).map (fun t => t.running) = some false)) :=
  ⟨⟨rfl, rfl⟩,
    work_done_when_not_running (sampleSys [sampleFrame 1] false .exited .idle) rfl rfl 4096⟩

theorem step_pool (s : Sys) (e : Event) (s' : Sys) (h : step s e = some s') :
    s'.blk = s.blk ∧ s'._cbuf.capacity = s._cbuf.capacity ∧
    (s'._cbuf.queue = s._cbuf.queue ∨ s'._cbuf.queue = s._cbuf.queue.drop 1 ∨
      (e = .cap_push ∧ s._cbuf.queue.length < s._cbuf.capacity ∧
        ∃ f, s.capture = .filled f ∧ s'._cbuf.queue = s._cbuf.queue ++ [f])) := by
  have hw := work_poll_frame s
  cases e with
  | start ret =>
    simp only [step] at h
    split at h
    all_goals first
      | (split at h <;> (simp only [Option.some.injEq] at h; subst h; simp))
      | simp at h
  | stop_clear => simp only [step, Option.some.injEq] at h; subst h; simp
  | stop_join =>
    simp only [step] at h
    split at h <;> simp at h
    subst h; simp
  | cap_test =>
    simp only [step] at h
    split at h <;> simp at h
    subst h; simp
  | cap_read ret data =>
    obtain ⟨_, _, rfl⟩ := step_cap_read_cases s ret data s' h
    simp
  | cap_push =>
    simp only [step] at h
    split at h <;> simp at h
    rename_i data hcap
    subst h
    have hp := capture_push_frame s data
    refine ⟨hp.1, hp.2.2.2.2.2.1, ?_⟩
    rcases hp.2.2.2.2.2.2 with ⟨h1, h2, _⟩ | ⟨_, h2, _⟩
    · exact Or.inr (Or.inr ⟨rfl, h1, data, hcap, h2⟩)
    · exact Or.inl h2
  | work_call n =>
    obtain ⟨_, ⟨_, rfl⟩ | ⟨_, rfl⟩⟩ := step_work_call_cases s n s' h <;> simp
  | work_lock =>
    obtain ⟨_, rfl⟩ := step_work_lock_cases s s' h
    exact ⟨hw.1, hw.2.2.2.2.2.1, Or.inr (Or.inl hw.2.2.2.2.2.2)⟩
  | work_wake =>
    obtain ⟨_, rfl⟩ := step_work_wake_cases s s' h
    exact ⟨hw.1, hw.2.2.2.2.2.1, Or.inr (Or.inl hw.2.2.2.2.2.2)⟩

theorem step_occupancy (N : Nat) (s : Sys) (e : Event) (s' : Sys) (_hC : (fun _ => true) e = true)
    (hP : s._cbuf.capacity = N ∧ s._cbuf.queue.length ≤ N) (h : step s e = some s') :
    s'._cbuf.capacity = N ∧ s'._cbuf.queue.length ≤ N := by
  obtain ⟨_, hcap, hq⟩ := step_pool s e s' h
  refine ⟨by rw [hcap]; exact hP.1, ?_⟩
  rcases hq with hq | hq | ⟨_, hlt, f, _, hq⟩
  · rw [hq]; exact hP.2
  · rw [hq, List.length_drop]; omega
  · rw [hq, List.length_append]; simp; omega

theorem run_occupancy (es : List Event) (s s' : Sys)
    (hP : s._cbuf.queue.length ≤ s._cbuf.capacity) (h : run s es = some s') :
    s'._cbuf.capacity = s._cbuf.capacity ∧ s'._cbuf.queue.length ≤ s._cbuf.capacity :=
  run_induction (fun _ => true)
    (fun t => t._cbuf.capacity = s._cbuf.capacity ∧ t._cbuf.queue.length ≤ s._cbuf.capacity)
    (step_occupancy s._cbuf.capacity) es s s' (by simp) ⟨rfl, hP⟩ h

theorem capture_rounds_run : ∀ (reads : List (Int × Frame)) (s : Sys),
    s.running = true → s.capture = .test → (∀ r ∈ reads, 0 ≤ r.1) →
    ∃ s', run s (captureRounds reads) = some s' ∧ s'.running = true ∧ s'.capture = .test ∧
      s'.blk = s.blk ∧ s'.consumer = s.consumer ∧ s'._cbuf.capacity = s._cbuf.capacity ∧
      s'._cbuf.queue = s._cbuf.queue ++
        (reads.map Prod.snd).take (s._cbuf.capacity - s._cbuf.queue.length) ∧
      s'.overflows = s.overflows + (reads.length - (s._cbuf.capacity - s._cbuf.queue.length)) ∧
      s'.notifies = s.notifies + reads.length
  | [], s, hrun, hcap, _ => ⟨s, rfl, hrun, hcap, rfl, rfl, rfl, by simp, by simp, by simp⟩
  | r :: rs, s, hrun, hcap, hok => by
    have hr : ¬ r.1 < 0 := by have := hok r (List.mem_cons_self _ _); omega
    have hp := capture_push_frame { s with capture := .filled r.2 } r.2
    dsimp only at hp
    obtain ⟨s', hrun', hrun2, hcap2, hblk, hcons, hcapac, hq, hov, hno⟩ :=
      capture_rounds_run rs (capture_push { s with capture := .filled r.2 } r.2)
        (by rw [hp.2.1]; exact hrun) hp.2.2.2.1
        (fun x hx => hok x (List.mem_cons_of_mem _ hx))
    refine ⟨s', ?_, hrun2, hcap2, by rw [hblk, hp.1], by rw [hcons, hp.2.2.1],
      by rw [hcapac, hp.2.2.2.2.2.1], ?_, ?_, ?_⟩
    · simp only [hrun] at hrun'
      simp only [captureRounds, run, step, hcap, hrun, if_true, hr, if_false]
      exact hrun'
    · rw [hq, hp.2.2.2.2.2.1]
      rcases hp.2.2.2.2.2.2 with ⟨h1, h2, _⟩ | ⟨h1, h2, _⟩
      · rw [h2]
        simp only [List.length_append, List.length_singleton, List.map_cons] at h1 ⊢
        rw [show s._cbuf.capacity - s._cbuf.queue.length
            = (s._cbuf.capacity - (s._cbuf.queue.length + 1)) + 1 by omega,
          List.take_succ_cons, List.append_assoc]
        rfl
      · rw [h2]
        rw [show s._cbuf.capacity - s._cbuf.queue.length = 0 by omega]
        simp
    · rw [hov, hp.2.2.2.2.2.1]
      rcases hp.2.2.2.2.2.2 with ⟨h1, h2, h3⟩ | ⟨h1, h2, h3⟩
      · rw [h2, h3]
        simp only [List.length_append, List.length_cons, List.length_nil]
        omega
      · rw [h2, h3]
        simp only [List.length_cons]
        omega
    · rw [hno, hp.2.2.2.2.1]
      simp only [List.length_cons]
      omega

/-- C6. Overflow policy of the capture loop: from an empty pool of capacity `N`,
`m` loop iterations whose reads succeed, with no other event in between, leave
the first `min m N` frames in the pool in read order, add exactly `m - N`
(truncated at zero) overflow marks, and leave the thread at its loop test with
the flag still set, so the next test enters another read.  Along the way, after
every prefix of these events, the pool holds at most `N` frames. -/
theorem capture_overflow_policy (s : Sys) (reads : List (Int × Frame))
    (hrun : s.running = true) (hcap : s.capture = .test) (hq : s._cbuf.queue = [])
    (hok : ∀ r ∈ reads, 0 ≤ r.1) :
    ∃ s', run s (captureRounds reads) = some s' ∧
      s'._cbuf.queue = (reads.map Prod.snd).take s._cbuf.capacity ∧
      s'._cbuf.queue.length = min reads.length s._cbuf.capacity ∧
      s'.overflows = s.overflows + (reads.length - s._cbuf.capacity) ∧
      s'._cbuf.capacity = s._cbuf.capacity ∧
      s'.running = true ∧ s'.capture = .test ∧
      step s' .cap_test = some { s' with capture := .reading } ∧
      (∀ (k : Nat) (sk : Sys), run s ((captureRounds reads).take k) = some sk →
        sk._cbuf.queue.length ≤ s._cbuf.capacity) := by
  obtain ⟨s', hrun', hrun2, hcap2, _, _, hcapac, hq', hov, _⟩ :=
    capture_rounds_run reads s hrun hcap hok
  simp only [hq, List.length_nil, Nat.sub_zero, List.nil_append] at hq' hov
  refine ⟨s', hrun', hq', ?_, hov, hcapac, hrun2, hcap2, ?_, ?_⟩
  · rw [hq']; simp [Nat.min_comm]
  · simp [step, hcap2, hrun2]
  · intro k sk hk
    exact (run_occupancy _ s sk (by simp [hq]) hk).2

/-- Witness for C6, the scenario of the specification: capacity 4, five reads
of 16-byte frames with no pop, one overflow and the first four frames kept. -/
theorem capture_overflow_policy_witness :
    ((sampleSys [] true .test .idle).running = true ∧
      (sampleSys [] true .test .idle).capture = .test ∧
      (sampleSys [] true .test .idle)._cbuf.queue = [] ∧
      (∀ r ∈ [(0, sampleFrame 1), (0, sampleFrame 2), (16, sampleFrame 3),
          (0, sampleFrame 4), (0, sampleFrame 5)], (0 : Int) ≤ r.1)) ∧
    (∃ s', run (sampleSys [] true .test .idle)
          (captureRounds [(0, sampleFrame 1), (0, sampleFrame 2), (16, sampleFrame 3),
            (0, sampleFrame 4), (0, sampleFrame 5)]) = some s' ∧
      s'._cbuf.queue =
        ([(0, sampleFrame 1), (0, sampleFrame 2), (16, sampleFrame 3), (0, sampleFrame 4),
          (0, sampleFrame 5)].map Prod.snd).take (sampleSys [] true .test .idle)._cbuf.capacity ∧
      s'._cbuf.queue.length =
        min [(0, sampleFrame 1), (0, sampleFrame 2), (16, sampleFrame 3), (0, sampleFrame 4),
          (0, sampleFrame 5)].length (sampleSys [] true .test .idle)._cbuf.capacity ∧
      s'.overflows = (sampleSys [] true .test .idle).overflows +
        ([(0, sampleFrame 1), (0, sampleFrame 2), (16, sampleFrame 3), (0, sampleFrame 4),
          (0, sampleFrame 5)].length - (sampleSys [] true .test .idle)._cbuf.capacity) ∧
      s'._cbuf.capacity = (sampleSys [] true .test .idle)._cbuf.capacity ∧
      s'.running = true ∧ s'.capture = .test ∧
      step s' .cap_test = some { s' with capture := .reading } ∧
      (∀ (k : Nat) (sk : Sys),
        run (sampleSys [] true .test .idle)
          ((captureRounds [(0, sampleFrame 1), (0, sampleFrame 2), (16, sampleFrame 3),
            (0, sampleFrame 4), (0, sampleFrame 5)]).take k) = some sk →
        sk._cbuf.queue.length ≤ (sampleSys [] true .test .idle)._cbuf.capacity)) ∧
    (run (sampleSys [] true .test .idle)
        (captureRounds [(0, sampleFrame 1), (0, sampleFrame 2), (16, sampleFrame 3),
          (0, sampleFrame 4), (0, sampleFrame 5)])).map
      (fun s' => (s'._cbuf.queue, s'.overflows, s'.notifies)) =
      some ([sampleFrame 1, sampleFrame 2, sampleFrame 3, sampleFrame 4], 1, 5) :=
  ⟨⟨rfl, rfl, rfl, by decide⟩,
    capture_overflow_policy (sampleSys [] true .test .idle)
      [(0, sampleFrame 1), (0, sampleFrame 2), (16, sampleFrame 3), (0, sampleFrame 4),
        (0, sampleFrame 5)] rfl rfl rfl (by decide),
    by decide⟩

theorem work_poll_returned (s : Sys) (r : WorkReturn)
    (h : (work_poll s).consumer = .returned r) :
    ∃ frame, s._cbuf.queue = frame :: (work_poll s)._cbuf.queue ∧
      work_convert s.blk frame = some r := by
  cases hq : s._cbuf.queue with
  | nil => rw [work_poll_empty s hq] at h; simp at h
  | cons f rest =>
    rw [work_poll_nonempty s f rest hq] at h ⊢
    refine ⟨f, rfl, ?_⟩
    cases hc : work_convert s.blk f with
    | none => simp [hc] at h
    | some r' =>
      simp only [hc, WorkPc.returned.injEq] at h
      rw [h]

theorem step_consumer (s : Sys) (e : Event) (s' : Sys) (h : step s e = some s') :
    s'.consumer = s.consumer ∨
    (s.consumer.callable = true ∧ s.running = false ∧
      s'.consumer = .returned { ret := WORK_DONE, out := [] } ∧ s'._cbuf = s._cbuf) ∨
    (s.consumer.callable = true ∧ s.running = true ∧ s'.consumer = .entered ∧
      s'._cbuf = s._cbuf) ∨
    (s.consumer.pulling = true ∧ s' = work_poll s) := by
  cases e with
  | start ret =>
    simp only [step] at h
    split at h
    all_goals first
      | (split at h <;> (simp only [Option.some.injEq] at h; subst h; simp))
      | simp at h
  | stop_clear => simp only [step, Option.some.injEq] at h; subst h; simp
  | stop_join =>
    simp only [step] at h
    split at h <;> simp at h
    subst h; simp
  | cap_test =>
    simp only [step] at h
    split at h <;> simp at h
    subst h; simp
  | cap_read ret data =>
    obtain ⟨_, _, rfl⟩ := step_cap_read_cases s ret data s' h
    simp
  | cap_push =>
    simp only [step] at h
    split at h <;> simp at h
    subst h
    exact Or.inl (capture_push_frame s _).2.2.1
  | work_call n =>
    obtain ⟨hc, ⟨hr, rfl⟩ | ⟨hr, rfl⟩⟩ := step_work_call_cases s n s' h
    · exact Or.inr (Or.inl ⟨hc, hr, rfl, rfl⟩)
    · exact Or.inr (Or.inr (Or.inl ⟨hc, hr, rfl, rfl⟩))
  | work_lock =>
    obtain ⟨hc, rfl⟩ := step_work_lock_cases s s' h
    exact Or.inr (Or.inr (Or.inr ⟨by simp [hc, WorkPc.pulling], rfl⟩))
  | work_wake =>
    obtain ⟨hc, rfl⟩ := step_work_wake_cases s s' h
    exact Or.inr (Or.inr (Or.inr ⟨by simp [hc, WorkPc.pulling], rfl⟩))

theorem not_callable_of_pulling (c : WorkPc) (h : c.pulling = true) : c.callable = false := by
  cases c <;> simp_all [WorkPc.pulling, WorkPc.callable]

theorem step_pulling_empty (s : Sys) (e : Event) (s' : Sys) (hC : e.notPush = true)
    (hP : s.consumer.pulling = true ∧ s._cbuf.queue = []) (h : step s e = some s') :
    s'.consumer.pulling = true ∧ s'._cbuf.queue = [] := by
  obtain ⟨_, _, hq⟩ := step_pool s e s' h
  have hq' : s'._cbuf.queue = [] := by
    rcases hq with hq | hq | ⟨he, _⟩
    · rw [hq, hP.2]
    · rw [hq, hP.2]; rfl
    · subst he; simp [Event.notPush] at hC
  refine ⟨?_, hq'⟩
  have hnc := not_callable_of_pulling _ hP.1
  rcases step_consumer s e s' h with hc | ⟨hc, _⟩ | ⟨hc, _⟩ | ⟨_, hc⟩
  · rw [hc, hP.1]
  · rw [hnc] at hc; simp at hc
  · rw [hnc] at hc; simp at hc
  · rw [hc, work_poll_empty s hP.2]; rfl

/-- C7. A pull returns only after a successful pop.  For a running stream:
with an empty pool a call of `work` passes the flag test and goes to waiting at
its first evaluation of the loop condition; a wake-up that finds the pool empty
leaves the state as it was, still waiting; a pull in progress stays in progress
over every sequence of events without a push.  Whenever a step makes a pull
return, the pool has lost exactly its oldest frame and the returned samples are
the conversion of that frame; and a wake-up that finds a frame does pop it and
return its conversion. -/
theorem work_returns_only_after_pop (s : Sys) (hrun : s.running = true) :
    (s._cbuf.queue = [] → s.consumer.callable = true → ∀ noutput_items : Int,
      run s [.work_call noutput_items, .work_lock] = some { s with consumer := .waiting }) ∧
    (s._cbuf.queue = [] → s.consumer = .waiting → step s .work_wake = some s) ∧
    (s._cbuf.queue = [] → s.consumer.pulling = true → ∀ (es : List Event) (s' : Sys),
      es.all Event.notPush = true → run s es = some s' →
        s'.consumer.pulling = true ∧ s'._cbuf.queue = []) ∧
    (∀ (e : Event) (s' : Sys) (r : WorkReturn), step s e = some s' →
      s'.consumer = .returned r → s.consumer ≠ .returned r →
        ∃ frame, s._cbuf.queue = frame :: s'._cbuf.queue ∧
          work_convert s.blk frame = some r) ∧
    (∀ (frame : Frame) (rest : List Frame) (r : WorkReturn), s._cbuf.queue = frame :: rest →
      s.consumer = .waiting → work_convert s.blk frame = some r →
        step s .work_wake =
          some { s with _cbuf := { s._cbuf with queue := rest }, consumer := .returned r }) := by
  refine ⟨?_, ?_, ?_, ?_, ?_⟩
  · intro hq hc n
    rw [run_work_call_lock s n hrun hc, work_poll_empty s hq]
  · intro hq hc
    rw [step_work_wake s hc, work_poll_empty s hq, ← hc]
  · intro hq hc es s' hes h
    exact run_induction Event.notPush
      (fun t => t.consumer.pulling = true ∧ t._cbuf.queue = [])
      step_pulling_empty es s s' hes ⟨hc, hq⟩ h
  · intro e s' r h hr hne
    rcases step_consumer s e s' h with hc | ⟨_, hc, _⟩ | ⟨_, _, hc, _⟩ | ⟨_, hc⟩
    · rw [hc] at hr; exact absurd hr hne
    · rw [hrun] at hc; simp at hc
    · rw [hc] at hr; simp at hr
    · subst hc; exact work_poll_returned s r hr
  · intro frame rest r hq hc hconv
    rw [step_work_wake s hc, work_poll_nonempty s frame rest hq, hconv]

/-- Witness for C7: a running stream whose consumer waits on an empty pool. -/
theorem work_returns_only_after_pop_witness :
    (sampleSys [] true .reading .waiting).running = true ∧
    ((sampleSys [] true .reading .waiting)._cbuf.queue = [] →
      (sampleSys [] true .reading .waiting).consumer.callable = true →
      ∀ noutput_items : Int,
        run (sampleSys [] true .reading .waiting) [.work_call noutput_items, .work_lock] =
          some { sampleSys [] true .reading .waiting with consumer := .waiting }) ∧
    ((sampleSys [] true .reading .waiting)._cbuf.queue = [] →
      (sampleSys [] true .reading .waiting).consumer = .waiting →
      step (sampleSys [] true .reading .waiting) .work_wake =
        some (sampleSys [] true .reading .waiting)) ∧
    ((sampleSys [] true .reading .waiting)._cbuf.queue = [] →
      (sampleSys [] true .reading .waiting).consumer.pulling = true →
      ∀ (es : List Event) (s' : Sys), es.all Event.notPush = true →
        run (sampleSys [] true .reading .waiting) es = some s' →
        s'.consumer.pulling = true ∧ s'._cbuf.queue = []) ∧
    (∀ (e : Event) (s' : Sys) (r : WorkReturn),
      step (sampleSys [] true .reading .waiting) e = some s' →
      s'.consumer = .returned r → (sampleSys [] true .reading .waiting).consumer ≠ .returned r →
        ∃ frame, (sampleSys [] true .reading .waiting)._cbuf.queue = frame :: s'._cbuf.queue ∧
          work_convert (sampleSys [] true .reading .waiting).blk frame = some r) ∧
    (∀ (frame : Frame) (rest : List Frame) (r : WorkReturn),
      (sampleSys [] true .reading .waiting)._cbuf.queue = frame :: rest →
      (sampleSys [] true .reading .waiting).consumer = .waiting →
      work_convert (sampleSys [] true .reading .waiting).blk frame = some r →
        step (sampleSys [] true .reading .waiting) .work_wake =
          some { sampleSys [] true .reading .waiting with
            _cbuf := { (sampleSys [] true .reading .waiting)._cbuf with queue := rest }
            consumer := .returned r }) :=
  ⟨rfl, work_returns_only_after_pop (sampleSys [] true .reading .waiting) rfl⟩

theorem pending_le_one (c : CapturePc) : c.pending ≤ 1 := by
  cases c <;> simp [CapturePc.pending]

theorem step_pending (s : Sys) (e : Event) (s' : Sys) (hC : e.notStart = true)
    (hr : s.running = false) (h : step s e = some s') :
    ((s'._cbuf.queue = s._cbuf.queue ∨ s'._cbuf.queue = s._cbuf.queue.drop 1) ∧
      s'.capture.pending ≤ s.capture.pending) ∨
    ((∃ f, s'._cbuf.queue = s._cbuf.queue ++ [f]) ∧ s.capture.pending = 1 ∧
      s'.capture.pending = 0) := by
  have hw := work_poll_frame s
  cases e with
  | start ret => simp [Event.notStart] at hC
  | stop_clear => simp only [step, Option.some.injEq] at h; subst h; simp
  | stop_join =>
    simp only [step] at h
    split at h <;> simp at h
    subst h; simp
  | cap_test =>
    simp only [step] at h
    split at h <;> simp at h
    subst h; simp [hr, CapturePc.pending]
  | cap_read ret data =>
    obtain ⟨hc, _, rfl⟩ := step_cap_read_cases s ret data s' h
    exact Or.inl ⟨Or.inl rfl, by simp [hc, CapturePc.pending]⟩
  | cap_push =>
    simp only [step] at h
    split at h <;> simp at h
    rename_i data hc
    subst h
    have hp := capture_push_frame s data
    rcases hp.2.2.2.2.2.2 with ⟨_, h2, _⟩ | ⟨_, h2, _⟩
    · exact Or.inr ⟨⟨data, h2⟩, by simp [hc, CapturePc.pending],
        by rw [hp.2.2.2.1]; rfl⟩
    · exact Or.inl ⟨Or.inl h2, by rw [hp.2.2.2.1]; simp [CapturePc.pending]⟩
  | work_call n =>
    obtain ⟨_, ⟨_, rfl⟩ | ⟨_, rfl⟩⟩ := step_work_call_cases s n s' h <;> simp
  | work_lock =>
    obtain ⟨_, rfl⟩ := step_work_lock_cases s s' h
    exact Or.inl ⟨Or.inr hw.2.2.2.2.2.2, by rw [hw.2.2.1]⟩
  | work_wake =>
    obtain ⟨_, rfl⟩ := step_work_wake_cases s s' h
    exact Or.inl ⟨Or.inr hw.2.2.2.2.2.2, by rw [hw.2.2.1]⟩

theorem step_flag_cleared (q : List Frame) (p : Nat) (hp : p ≤ 1) (s : Sys) (e : Event)
    (s' : Sys) (hC : e.notStart = true)
    (hP : s.running = false ∧ ∃ k extra, extra.length + s.capture.pending ≤ p ∧
      s._cbuf.queue = (q ++ extra).drop k)
    (h : step s e = some s') :
    s'.running = false ∧ ∃ k extra, extra.length + s'.capture.pending ≤ p ∧
      s'._cbuf.queue = (q ++ extra).drop k := by
  obtain ⟨hr, k, extra, hle, hq⟩ := hP
  refine ⟨step_running s e s' hC hr h, ?_⟩
  rcases step_pending s e s' hC hr h with ⟨hq' | hq', hpen⟩ | ⟨⟨f, hq'⟩, hp1, hp0⟩
  · exact ⟨k, extra, by omega, by rw [hq', hq]⟩
  · exact ⟨k + 1, extra, by omega, by rw [hq', hq, List.drop_drop]⟩
  · have hex : extra = [] := List.eq_nil_of_length_eq_zero (by omega)
    subst hex
    rw [List.append_nil] at hq
    refine ⟨min k q.length, [f], by simp [hp0]; omega, ?_⟩
    rw [hq', hq, List.drop_append_of_le_length (Nat.min_le_right _ _)]
    congr 1
    by_cases hk : k ≤ q.length
    · rw [Nat.min_eq_left hk]
    · rw [Nat.min_eq_right (by omega), List.drop_length, List.drop_eq_nil_of_le (by omega)]

/-- C9 (as amended). The capture loop tests the running flag only at the head
of an iteration.  Once the flag is false, over every sequence of events without
a `start` the flag stays false and the pool is its old contents, followed by at
most one further frame, with some frames popped from the front; a further
frame is possible only while a read is in flight or has just returned
(`pending = 1`), and a thread standing at the loop test exits at that test
without reading or pushing. -/
theorem capture_after_flag_cleared (s : Sys) (hrun : s.running = false) (es : List Event)
    (hes : es.all Event.notStart = true) (s' : Sys) (h : run s es = some s') :
    s'.running = false ∧ s.capture.pending ≤ 1 ∧
    (∃ k extra, extra.length ≤ s.capture.pending ∧
      s'._cbuf.queue = (s._cbuf.queue ++ extra).drop k) ∧
    s'.capture.pending ≤ s.capture.pending ∧
    (s.capture = .test → step s .cap_test = some { s with capture := .exited }) := by
  have hinv := run_induction Event.notStart
    (fun t => t.running = false ∧ ∃ k extra, extra.length + t.capture.pending ≤ s.capture.pending ∧
      t._cbuf.queue = (s._cbuf.queue ++ extra).drop k)
    (step_flag_cleared s._cbuf.queue s.capture.pending (pending_le_one _)) es s s' hes
    ⟨hrun, 0, [], by simp, by simp⟩ h
  obtain ⟨hr, k, extra, hle, hq⟩ := hinv
  refine ⟨hr, pending_le_one _, ⟨k, extra, by omega, hq⟩, by omega, ?_⟩
  intro hc
  simp [step, hc, hrun]

/-- Witness for C9 (as amended): the flag is cleared while a read is in flight;
the read returns a frame, which is pushed, and the next loop test exits. -/
theorem capture_after_flag_cleared_witness :
    ((sampleSys [sampleFrame 1] false .reading .idle).running = false ∧
      [Event.cap_read 0 (sampleFrame 2), Event.cap_push, Event.cap_test].all Event.notStart
        = true ∧
      run (sampleSys [sampleFrame 1] false .reading .idle)
          [Event.cap_read 0 (sampleFrame 2), Event.cap_push, Event.cap_test] =
        some { sampleSys [sampleFrame 1, sampleFrame 2] false .exited .idle with notifies := 1 }) ∧
    ({ sampleSys [sampleFrame 1, sampleFrame 2] false .exited .idle with
        notifies := 1 }.running = false ∧
    (sampleSys [sampleFrame 1] false .reading .idle).capture.pending ≤ 1 ∧
    (∃ k extra, extra.length ≤ (sampleSys [sampleFrame 1] false .reading .idle).capture.pending ∧
      { sampleSys [sampleFrame 1, sampleFrame 2] false .exited .idle with
          notifies := 1 }._cbuf.queue =
        ((sampleSys [sampleFrame 1] false .reading .idle)._cbuf.queue ++ extra).drop k) ∧
    { sampleSys [sampleFrame 1, sampleFrame 2] false .exited .idle with
        notifies := 1 }.capture.pending ≤
      (sampleSys [sampleFrame 1] false .reading .idle).capture.pending ∧
    ((sampleSys [sampleFrame 1] false .reading .idle).capture = .test →
      step (sampleSys [sampleFrame 1] false .reading .idle) .cap_test =
        some { sampleSys [sampleFrame 1] false .reading .idle with capture := .exited })) :=
  ⟨⟨rfl, by decide, by decide⟩,
    capture_after_flag_cleared (sampleSys [sampleFrame 1] false .reading .idle) rfl
      [Event.cap_read 0 (sampleFrame 2), Event.cap_push, Event.cap_test] (by decide)
      { sampleSys [sampleFrame 1, sampleFrame 2] false .exited .idle with notifies := 1 }
      (by decide)⟩

/-- Counterexample to C9 as stated: the flag is cleared while the first read is
in flight and the pool is empty; when the read returns, its frame is pushed all
the same, so the pool differs from its contents at the time of clearing by a
push. -/
theorem frame_pushed_after_flag_cleared :
    run (initial (construct 8 4 true true)) [.start 0, .cap_test, .stop_clear] =
      some (sampleSys [] false .reading .idle) ∧
    run (sampleSys [] false .reading .idle) [.cap_read 0 (sampleFrame 1), .cap_push] =
      some { sampleSys [sampleFrame 1] false .test .idle with notifies := 1 } := by
  decide


/-- C10, evaluated on the source's constants.  With only RX2 enabled the block
has one output and runs the single-channel branch of `work`, which returns and
writes `16384` items per call, but the constructor registers `8192` as minimum
item count (and a buffer size for a port 1 that does not exist).  With RX1 alone
or with both channels the registered minimum is the returned count `16384`. -/
theorem min_noutput_items_rx2_only :
    (yunsdr_source_impl false true).rx_channel = RxChannel.RX2_CHANNEL ∧
    (yunsdr_source_impl false true).noutputs = 1 ∧
    (yunsdr_source_impl false true).min_output_buffer = [(0, 262144), (1, 262144)] ∧
    (yunsdr_source_impl false true).min_noutput_items = 8192 ∧
    (∃ r : WorkReturn,
      work_convert (yunsdr_source_impl false true) (List.replicate 65536 0) = some r ∧
      r.ret = 16384 ∧ r.out.length = 1 ∧ ∀ o ∈ r.out, (o.length : Int) = 16384) ∧
    (yunsdr_source_impl true false).min_noutput_items = 16384 ∧
    (∃ r : WorkReturn,
      work_convert (yunsdr_source_impl true false) (List.replicate 65536 0) = some r ∧
      r.ret = 16384 ∧ r.out.length = 1 ∧ ∀ o ∈ r.out, (o.length : Int) = 16384) ∧
    (yunsdr_source_impl true true).min_noutput_items = 16384 ∧
    (∃ r : WorkReturn,
      work_convert (yunsdr_source_impl true true) (List.replicate 131072 0) = some r ∧
      r.ret = 16384 ∧ r.out.length = 2 ∧ ∀ o ∈ r.out, (o.length : Int) = 16384) := by
  have hL : BUF_LEN * 2 < 2 ^ 32 := by decide
  have hdiv : ∀ a b : Bool, (a && b) = true → BUF_LEN % 4 = 0 := fun _ _ _ => by decide
  have hdef : ∀ a b : Bool, yunsdr_source_impl a b = construct BUF_LEN BUF_NUM a b :=
    fun _ _ => rfl
  refine ⟨by decide, by decide, by decide, by decide, ?_, by decide, ?_, by decide, ?_⟩
  · obtain ⟨r, hr, hret, hlen, ho⟩ := work_convert_construct BUF_LEN BUF_NUM false true rfl hL
      (hdiv _ _) (List.replicate 65536 0) (by rw [List.length_replicate]; decide)
    have h16 : r.ret = 16384 := by
      rw [hret]; simp [construct, BUF_LEN, BYTES_PER_SAMPLE]
    rw [hdef]
    exact ⟨r, hr, h16, by simpa using hlen, fun o h => by rw [ho o h, h16]⟩
  · obtain ⟨r, hr, hret, hlen, ho⟩ := work_convert_construct BUF_LEN BUF_NUM true false rfl hL
      (hdiv _ _) (List.replicate 65536 0) (by rw [List.length_replicate]; decide)
    have h16 : r.ret = 16384 := by
      rw [hret]; simp [construct, BUF_LEN, BYTES_PER_SAMPLE]
    rw [hdef]
    exact ⟨r, hr, h16, by simpa using hlen, fun o h => by rw [ho o h, h16]⟩
  · obtain ⟨r, hr, hret, hlen, ho⟩ := work_convert_construct BUF_LEN BUF_NUM true true rfl hL
      (hdiv _ _) (List.replicate 131072 0) (by rw [List.length_replicate]; decide)
    have h16 : r.ret = 16384 := by
      rw [hret]; simp [construct, BUF_LEN, BYTES_PER_SAMPLE]
    rw [hdef]
    exact ⟨r, hr, h16, by simpa using hlen, fun o h => by rw [ho o h, h16]⟩

end YunSDR
